import Mathlib

/-!
# Verification of the `refa` FA→regex core

Shallow embedding of `src/char-set.ts` (interval-set algebra) and
`src/to-regex.ts` (transition factory, graph builder sort, AST simplifier,
conversion pipeline), with theorems settling the frozen claims about the
natural-language specification.

Conventions:
* JS `number` values that the class invariant keeps non-negative are
  modelled as `Nat`; values that may be compared against `0` (such as the
  raw inputs of `checkRange`) are modelled as `Int`.
* `throw` is modelled with `Except`, one error constructor per throw site.
* In-place mutation of arrays/objects is modelled by returning the new
  value; the JS functions that return a "changed" boolean are modelled as
  functions returning a pair `(newValue, changed)`.
-/

namespace Refa

/-- `CharRange` (char-set.ts:6): a closed interval of code points. -/
structure CharRange where
  min : Nat
  max : Nat
deriving DecidableEq, Repr

/-- `CharSet` (char-set.ts:20): an ambient maximum plus a list of ranges.
The class invariant (sorted, disjoint, non-adjacent, bounded) is stated
separately as `CharSet.NF`. -/
structure CharSet where
  maximum : Nat
  ranges : List CharRange
deriving DecidableEq, Repr

/-- `optimizeSortedRanges` (char-set.ts:535): one linear pass over a list
sorted by ascending `min` that drops contained ranges and fuses
overlapping or adjacent ones. -/
def optimizeSortedRanges : List CharRange → List CharRange
  | [] => []
  | [r] => [r]
  | c :: n :: rest =>
    if n.max ≤ c.max then optimizeSortedRanges (c :: rest)
    else if n.min ≤ c.max + 1 then optimizeSortedRanges (⟨c.min, n.max⟩ :: rest)
    else c :: optimizeSortedRanges (n :: rest)
termination_by l => l.length

/-- The merge loop of `unionRanges` (char-set.ts:447-471): merge two lists
sorted by `min` (ties favour the first list), then append the leftovers. -/
def mergeRanges : List CharRange → List CharRange → List CharRange
  | [], b => b
  | a, [] => a
  | ra :: ta, rb :: tb =>
    if ra.min ≤ rb.min then ra :: mergeRanges ta (rb :: tb)
    else rb :: mergeRanges (ra :: ta) tb
termination_by a b => a.length + b.length

/-- `unionRanges` (char-set.ts:447): merge then optimize. -/
def unionRanges (a b : List CharRange) : List CharRange :=
  optimizeSortedRanges (mergeRanges a b)

/-- `intersectRanges` (char-set.ts:409): two-pointer sweep emitting the
overlap of the current heads and advancing the head with the smaller
`max` (both on a tie). -/
def intersectRanges : List CharRange → List CharRange → List CharRange
  | [], _ => []
  | _ :: _, [] => []
  | ra :: ta, rb :: tb =>
    if ra.max < rb.min then intersectRanges ta (rb :: tb)
    else if rb.max < ra.min then intersectRanges (ra :: ta) tb
    else
      ⟨max ra.min rb.min, min ra.max rb.max⟩ ::
        (if ra.max < rb.max then intersectRanges ta (rb :: tb)
         else if rb.max < ra.max then intersectRanges (ra :: ta) tb
         else intersectRanges ta tb)
termination_by a b => a.length + b.length

/-- `withoutRanges` (char-set.ts:479): `a` minus `b` by a two-pointer sweep;
on overlap the fragment of the `a` head left of `b` is emitted and the
fragment right of `b` (if any) becomes the new `a` head. -/
def withoutRanges : List CharRange → List CharRange → List CharRange
  | [], _ => []
  | a, [] => a
  | ra :: ta, rb :: tb =>
    if ra.max < rb.min then ra :: withoutRanges ta (rb :: tb)
    else if rb.max < ra.min then withoutRanges (ra :: ta) tb
    else
      if ra.min < rb.min then
        ⟨ra.min, rb.min - 1⟩ ::
          (if rb.max < ra.max then withoutRanges (⟨rb.max + 1, ra.max⟩ :: ta) tb
           else withoutRanges ta (rb :: tb))
      else
        if rb.max < ra.max then withoutRanges (⟨rb.max + 1, ra.max⟩ :: ta) tb
        else withoutRanges ta (rb :: tb)
termination_by a b => a.length + b.length

/-- The gap loop of `negateRanges` (char-set.ts:592-594): the gaps between
consecutive ranges. -/
def gapsBetween : List CharRange → List CharRange
  | [] => []
  | [_] => []
  | a :: b :: rest => ⟨a.max + 1, b.min - 1⟩ :: gapsBetween (b :: rest)

/-- `negateRanges` (char-set.ts:579): the complement of an optimized range
list within `[0, maximum]`: leading gap, inner gaps, trailing gap. -/
def negateRanges (ranges : List CharRange) (maximum : Nat) : List CharRange :=
  match ranges with
  | [] => [⟨0, maximum⟩]
  | first :: rest =>
    let last := (first :: rest).getLast (by simp)
    (if 0 < first.min then [⟨0, first.min - 1⟩] else []) ++
      gapsBetween (first :: rest) ++
      (if last.max < maximum then [⟨last.max + 1, maximum⟩] else [])

/-- The sweep loop of `isSupersetOf` (char-set.ts:264-279) on the two range
lists: disprove containment by finding a character of `other` outside
`this`. -/
def isSupersetOfRanges : List CharRange → List CharRange → Bool
  | _, [] => true
  | [], _ :: _ => false
  | rt :: tt, ro :: tlo =>
    if rt.min ≤ ro.min ∧ ro.max ≤ rt.max then isSupersetOfRanges (rt :: tt) tlo
    else if rt.max < ro.min then isSupersetOfRanges tt (ro :: tlo)
    else false
termination_by a b => a.length + b.length

/-- The sweep loop of `commonCharacter` (char-set.ts:324-337) on the two
range lists. -/
def commonCharacterRanges : List CharRange → List CharRange → Option Nat
  | [], _ => none
  | _ :: _, [] => none
  | rt :: tt, ro :: tlo =>
    if ro.max < rt.min then commonCharacterRanges (rt :: tt) tlo
    else if rt.max < ro.min then commonCharacterRanges tt (ro :: tlo)
    else some (max rt.min ro.min)
termination_by a b => a.length + b.length

/-- The pairwise loop shared by `equals` (char-set.ts:147-151). -/
def eqPairsLoop : List CharRange → List CharRange → Bool
  | [], _ => true
  | _ :: _, [] => true
  | ra :: ta, rb :: tb =>
    if ra.min ≠ rb.min ∨ ra.max ≠ rb.max then false else eqPairsLoop ta tb

/-- The pairwise loop of `compare` (char-set.ts:166-171), which also covers
the trailing `length` difference of the line-164 comparison because the
loop is only reached once a prefix has been consumed equally. -/
def cmpPairsLoop : List CharRange → List CharRange → Int
  | [], b => -(b.length : Int)
  | a, [] => (a.length : Int)
  | ra :: ta, rb :: tb =>
    if ra.min ≠ rb.min then (ra.min : Int) - (rb.min : Int)
    else if ra.max ≠ rb.max then (ra.max : Int) - (rb.max : Int)
    else cmpPairsLoop ta tb

/-- Error kinds of the CharSet module. `domainMismatch` is the
`checkCompatibility` throw (char-set.ts:114-121); the two `checkRange`
throw sites (char-set.ts:135-137) get one constructor each. -/
inductive CSErr where
  | domainMismatch
  | rangeMinOutOfBounds
  | rangeMaxOutOfBounds
deriving DecidableEq, Repr

namespace CharSet

/-- `isEmpty` getter (char-set.ts:41). -/
def isEmpty (s : CharSet) : Bool :=
  s.ranges.length == 0

/-- `CharSet.empty` (char-set.ts:92). The interning cache only shares
structurally equal values, so it is dropped. -/
def empty (maximum : Nat) : CharSet :=
  ⟨maximum, []⟩

/-- `CharSet.all` (char-set.ts:105). -/
def all (maximum : Nat) : CharSet :=
  ⟨maximum, [⟨0, maximum⟩]⟩

/-- `checkRange` (char-set.ts:134-139), over raw (possibly negative)
inputs, hence `Int`. Both throw sites are kept, with distinct errors, so
that reachability of the second throw can be settled. -/
def checkRange (maximum : Int) (r : Int × Int) : Except CSErr (Int × Int) :=
  if r.1 < 0 ∨ r.1 > r.2 ∨ r.2 > maximum then Except.error CSErr.rangeMinOutOfBounds
  else if r.2 > maximum then Except.error CSErr.rangeMaxOutOfBounds
  else Except.ok r

/-- `equals` (char-set.ts:141-153). The `other === this` reference
shortcut is dropped: on structurally equal arguments the remaining code
returns `true` as well. The `instanceof` test is enforced by typing. -/
def equals (a other : CharSet) : Bool :=
  if a.maximum ≠ other.maximum then false
  else if a.ranges.length ≠ other.ranges.length then false
  else eqPairsLoop a.ranges other.ranges

/-- `compare` (char-set.ts:154-173). The `other === this` shortcut is
dropped (the structural path returns `0` there too). -/
def compare (a other : CharSet) : Int :=
  if a.maximum ≠ other.maximum then (a.maximum : Int) - (other.maximum : Int)
  else if a.isEmpty then (if other.isEmpty then 0 else -1)
  else if other.isEmpty then 1
  else
    match a.ranges, other.ranges with
    | ra :: _, rb :: _ =>
      if ra.min ≠ rb.min then (ra.min : Int) - (rb.min : Int)
      else if a.ranges.length ≠ other.ranges.length then
        (a.ranges.length : Int) - (other.ranges.length : Int)
      else cmpPairsLoop a.ranges other.ranges
    | _, _ => 0

/-- `negate` (char-set.ts:175-177). -/
def negate (s : CharSet) : CharSet :=
  ⟨s.maximum, negateRanges s.ranges s.maximum⟩

/-- `union` (char-set.ts:179-199), single-`CharSet`-argument path: after
`checkCompatibility`, an empty argument returns the receiver unchanged,
otherwise `unionRanges`. (The variadic path over raw range iterables is
not modelled.) -/
def union (s first : CharSet) : Except CSErr CharSet :=
  if first.maximum ≠ s.maximum then Except.error CSErr.domainMismatch
  else if first.ranges.length == 0 then Except.ok s
  else Except.ok ⟨s.maximum, unionRanges s.ranges first.ranges⟩

/-- `intersect` (char-set.ts:201-220), `CharSet`-argument overload: after
`checkCompatibility`, `intersectRanges`; an empty result is returned as
`CharSet.empty(maximum)`. -/
def intersect (s data : CharSet) : Except CSErr CharSet :=
  if data.maximum ≠ s.maximum then Except.error CSErr.domainMismatch
  else
    let newRanges := intersectRanges s.ranges data.ranges
    if newRanges.length == 0 then Except.ok (empty s.maximum)
    else Except.ok ⟨s.maximum, newRanges⟩

/-- `without` (char-set.ts:222-240), `CharSet`-argument overload. -/
def without (s data : CharSet) : Except CSErr CharSet :=
  if data.maximum ≠ s.maximum then Except.error CSErr.domainMismatch
  else
    let newRanges := withoutRanges s.ranges data.ranges
    if newRanges.length == 0 then Except.ok (empty s.maximum)
    else Except.ok ⟨s.maximum, newRanges⟩

/-- `isSupersetOf` (char-set.ts:246-280), `CharSet`-argument branch. Note
that the source performs no `checkCompatibility` here. -/
def isSupersetOf (s other : CharSet) : Bool :=
  isSupersetOfRanges s.ranges other.ranges

/-- `isSubsetOf` (char-set.ts:281-291), `CharSet`-argument branch. -/
def isSubsetOf (s other : CharSet) : Bool :=
  other.isSupersetOf s

/-- `commonCharacter` (char-set.ts:309-338), `CharSet`-argument branch. -/
def commonCharacter (s other : CharSet) : Option Nat :=
  commonCharacterRanges s.ranges other.ranges

/-- `isDisjointWith` (char-set.ts:298-300). -/
def isDisjointWith (s other : CharSet) : Bool :=
  (s.commonCharacter other).isNone

/-- The documented class invariant of `CharSet.ranges` (char-set.ts:29-35):
sorted by ascending `min`, pairwise disjoint and non-adjacent, and every
range within `[0, maximum]` with `min ≤ max`. -/
def NF (s : CharSet) : Prop :=
  List.Pairwise (fun a b : CharRange => a.min ≤ b.min) s.ranges ∧
    List.Chain' (fun a b : CharRange => a.max + 1 < b.min) s.ranges ∧
    (∀ r ∈ s.ranges, r.min ≤ r.max) ∧ ∀ r ∈ s.ranges, r.max ≤ s.maximum

end CharSet

/-! ## Semantics of range lists -/

/-- A code point lies in a single range. -/
def inR (ch : Nat) (r : CharRange) : Prop :=
  r.min ≤ ch ∧ ch ≤ r.max

/-- A code point lies in some range of the list. -/
def covers (rs : List CharRange) (ch : Nat) : Prop :=
  ∃ r ∈ rs, inR ch r

/-- Ranges sorted by ascending `min` (invariant 4 of char-set.ts:29-35). -/
def SortedMins (rs : List CharRange) : Prop :=
  List.Pairwise (fun a b : CharRange => a.min ≤ b.min) rs

/-- Consecutive ranges disjoint and non-adjacent (invariants 1-2). -/
def RChain (rs : List CharRange) : Prop :=
  List.Chain' (fun a b : CharRange => a.max + 1 < b.min) rs

/-- Every range is non-degenerate (`min ≤ max`). -/
def RValid (rs : List CharRange) : Prop :=
  ∀ r ∈ rs, r.min ≤ r.max

/-- Every range stays below the ambient maximum. -/
def RBnd (m : Nat) (rs : List CharRange) : Prop :=
  ∀ r ∈ rs, r.max ≤ m

theorem covers_nil (ch : Nat) : covers [] ch ↔ False := by
  simp [covers]

theorem covers_cons {r : CharRange} {rs : List CharRange} {ch : Nat} :
    covers (r :: rs) ch ↔ inR ch r ∨ covers rs ch := by
  simp [covers]

theorem NF_parts {s : CharSet} (h : s.NF) :
    SortedMins s.ranges ∧ RChain s.ranges ∧ RValid s.ranges ∧ RBnd s.maximum s.ranges :=
  ⟨h.1, h.2.1, h.2.2.1, h.2.2.2⟩

theorem NF_of_parts {s : CharSet} (h1 : SortedMins s.ranges) (h2 : RChain s.ranges)
    (h3 : RValid s.ranges) (h4 : RBnd s.maximum s.ranges) : s.NF :=
  ⟨h1, h2, h3, h4⟩

/-- In a disjoint non-adjacent valid list, the head precedes every later
range by at least one full gap. -/
theorem chain_head_lt {r : CharRange} {rs : List CharRange}
    (hc : RChain (r :: rs)) (hv : RValid (r :: rs)) :
    ∀ x ∈ rs, r.max + 1 < x.min := by
  induction rs generalizing r with
  | nil => intro x hx; cases hx
  | cons b t ih =>
    intro x hx
    rw [RChain, List.chain'_cons] at hc
    rcases List.mem_cons.mp hx with rfl | hx
    · exact hc.1
    · have hb : b.max + 1 < x.min := by
        refine ih hc.2 ?_ x hx
        intro y hy
        exact hv y (List.mem_cons_of_mem _ hy)
      have hbv : b.min ≤ b.max := hv b (by simp)
      omega

/-- `RChain` plus `RValid` implies sortedness by `min`. -/
theorem sortedMins_of_chain {rs : List CharRange} (hc : RChain rs) (hv : RValid rs) :
    SortedMins rs := by
  induction rs with
  | nil => exact List.Pairwise.nil
  | cons r t ih =>
    refine List.Pairwise.cons ?_ ?_
    · intro x hx
      have h1 := chain_head_lt hc hv x hx
      have h2 := hv r (by simp)
      omega
    · rw [RChain, List.chain'_cons'] at hc
      exact ih hc.2 (fun y hy => hv y (List.mem_cons_of_mem _ hy))

/-- A covered code point is at least the head's `min` (sorted list). -/
theorem covers_lb {r : CharRange} {rs : List CharRange} {ch : Nat}
    (hs : SortedMins (r :: rs)) (h : covers (r :: rs) ch) : r.min ≤ ch := by
  rcases h with ⟨x, hx, hin⟩
  rcases List.mem_cons.mp hx with rfl | hx
  · exact hin.1
  · exact le_trans ((List.pairwise_cons.mp hs).1 x hx) hin.1

/-- A code point covered by the tail lies beyond the head's gap. -/
theorem covers_tail_lb {r : CharRange} {rs : List CharRange} {ch : Nat}
    (hc : RChain (r :: rs)) (hv : RValid (r :: rs)) (h : covers rs ch) :
    r.max + 1 < ch + 1 := by
  rcases h with ⟨x, hx, hin⟩
  have h1 := chain_head_lt hc hv x hx
  have h2 := hin.1
  omega

/-! ## `optimizeSortedRanges` -/

theorem osr_head (c : CharRange) (rest : List CharRange) :
    ∃ mx tl, optimizeSortedRanges (c :: rest) = CharRange.mk c.min mx :: tl := by
  induction rest generalizing c with
  | nil => exact ⟨c.max, [], by simp [optimizeSortedRanges]⟩
  | cons n rest ih =>
    rw [optimizeSortedRanges]
    split
    · exact ih c
    · split
      · exact ih ⟨c.min, n.max⟩
      · exact ⟨c.max, optimizeSortedRanges (n :: rest), rfl⟩

/-- Main specification of `optimizeSortedRanges`: on a min-sorted valid
bounded list it yields a normal-form list covering the same code points. -/
theorem osr_spec {m : Nat} (rs : List CharRange) (hs : SortedMins rs)
    (hv : RValid rs) (hb : RBnd m rs) :
    (SortedMins (optimizeSortedRanges rs) ∧ RChain (optimizeSortedRanges rs) ∧
      RValid (optimizeSortedRanges rs) ∧ RBnd m (optimizeSortedRanges rs)) ∧
      ∀ ch, covers (optimizeSortedRanges rs) ch ↔ covers rs ch := by
  induction rs using optimizeSortedRanges.induct with
  | case1 =>
    rw [optimizeSortedRanges]
    exact ⟨⟨hs, List.chain'_nil, hv, hb⟩, fun ch => Iff.rfl⟩
  | case2 r =>
    rw [optimizeSortedRanges]
    refine ⟨⟨hs, ?_, hv, hb⟩, fun ch => Iff.rfl⟩
    rw [RChain]
    exact List.chain'_singleton r
  | case3 c n rest hle ih =>
    rw [optimizeSortedRanges, if_pos hle]
    have hs1 := List.pairwise_cons.mp hs
    have hs2 := List.pairwise_cons.mp hs1.2
    have hcn : c.min ≤ n.min := hs1.1 n (by simp)
    have hs' : SortedMins (c :: rest) :=
      List.Pairwise.cons (fun x hx => hs1.1 x (List.mem_cons_of_mem n hx)) hs2.2
    have hv' : RValid (c :: rest) := by
      intro r hr
      rcases List.mem_cons.mp hr with rfl | hr
      · exact hv r (by simp)
      · exact hv r (by simp [List.mem_cons_of_mem, hr])
    have hb' : RBnd m (c :: rest) := by
      intro r hr
      rcases List.mem_cons.mp hr with rfl | hr
      · exact hb r (by simp)
      · exact hb r (by simp [List.mem_cons_of_mem, hr])
    rcases ih hs' hv' hb' with ⟨hnf, hcov⟩
    refine ⟨hnf, fun ch => (hcov ch).trans ?_⟩
    rw [covers_cons, covers_cons, covers_cons]
    constructor
    · rintro (h | h)
      · exact Or.inl h
      · exact Or.inr (Or.inr h)
    · rintro (h | h | h)
      · exact Or.inl h
      · exact Or.inl ⟨le_trans hcn h.1, le_trans h.2 hle⟩
      · exact Or.inr h
  | case4 c n rest hgt hle ih =>
    rw [optimizeSortedRanges, if_neg hgt, if_pos hle]
    have hs1 := List.pairwise_cons.mp hs
    have hs2 := List.pairwise_cons.mp hs1.2
    have hcn : c.min ≤ n.min := hs1.1 n (by simp)
    have hnv : n.min ≤ n.max := hv n (by simp)
    have hcv : c.min ≤ c.max := hv c (by simp)
    have hs' : SortedMins (CharRange.mk c.min n.max :: rest) :=
      List.Pairwise.cons (fun x hx => le_trans hcn (hs2.1 x hx)) hs2.2
    have hv' : RValid (CharRange.mk c.min n.max :: rest) := by
      intro r hr
      rcases List.mem_cons.mp hr with rfl | hr
      · exact le_trans hcn hnv
      · exact hv r (by simp [List.mem_cons_of_mem, hr])
    have hb' : RBnd m (CharRange.mk c.min n.max :: rest) := by
      intro r hr
      rcases List.mem_cons.mp hr with rfl | hr
      · exact hb n (by simp)
      · exact hb r (by simp [List.mem_cons_of_mem, hr])
    rcases ih hs' hv' hb' with ⟨hnf, hcov⟩
    refine ⟨hnf, fun ch => (hcov ch).trans ?_⟩
    rw [covers_cons, covers_cons, covers_cons]
    simp only [inR]
    constructor
    · rintro (h | h)
      · rcases h with ⟨h1, h2⟩
        by_cases hcc : ch ≤ c.max
        · exact Or.inl ⟨h1, hcc⟩
        · exact Or.inr (Or.inl ⟨by omega, h2⟩)
      · exact Or.inr (Or.inr h)
    · rintro (h | h | h)
      · exact Or.inl ⟨h.1, by omega⟩
      · exact Or.inl ⟨by have := h.1; omega, h.2⟩
      · exact Or.inr h
  | case5 c n rest hgt hgt2 ih =>
    rw [optimizeSortedRanges, if_neg hgt, if_neg hgt2]
    have hs1 := List.pairwise_cons.mp hs
    have hs' : SortedMins (n :: rest) := hs1.2
    have hv' : RValid (n :: rest) := fun r hr => hv r (List.mem_cons_of_mem _ hr)
    have hb' : RBnd m (n :: rest) := fun r hr => hb r (List.mem_cons_of_mem _ hr)
    rcases ih hs' hv' hb' with ⟨⟨hnfs, hnfc, hnfv, hnfb⟩, hcov⟩
    rcases osr_head n rest with ⟨mx, tl, heq⟩
    refine ⟨⟨?_, ?_, ?_, ?_⟩, ?_⟩
    · refine List.Pairwise.cons ?_ hnfs
      intro x hx
      have hxcov : covers (n :: rest) x.min := (hcov x.min).mp ⟨x, hx, le_refl _, hnfv x hx⟩
      have hlb : n.min ≤ x.min := covers_lb hs' hxcov
      have hcmin : c.min ≤ n.min := hs1.1 n (by simp)
      omega
    · rw [RChain, heq, List.chain'_cons]
      constructor
      · show c.max + 1 < n.min
        omega
      · have h2 := hnfc
        rw [RChain, heq] at h2
        exact h2
    · intro r hr
      rcases List.mem_cons.mp hr with rfl | hr
      · exact hv r (by simp)
      · exact hnfv r hr
    · intro r hr
      rcases List.mem_cons.mp hr with rfl | hr
      · exact hb r (by simp)
      · exact hnfb r hr
    · intro ch
      rw [covers_cons, covers_cons, hcov ch]

/-! ## `mergeRanges` and `unionRanges` -/

theorem covers_perm {l1 l2 : List CharRange} (h : l1.Perm l2) (ch : Nat) :
    covers l1 ch ↔ covers l2 ch := by
  constructor <;> rintro ⟨r, hr, hin⟩
  · exact ⟨r, h.mem_iff.mp hr, hin⟩
  · exact ⟨r, h.mem_iff.mpr hr, hin⟩

theorem covers_append {l1 l2 : List CharRange} {ch : Nat} :
    covers (l1 ++ l2) ch ↔ covers l1 ch ∨ covers l2 ch := by
  constructor
  · rintro ⟨r, hr, hin⟩
    rcases List.mem_append.mp hr with h | h
    · exact Or.inl ⟨r, h, hin⟩
    · exact Or.inr ⟨r, h, hin⟩
  · rintro (⟨r, hr, hin⟩ | ⟨r, hr, hin⟩)
    · exact ⟨r, List.mem_append.mpr (Or.inl hr), hin⟩
    · exact ⟨r, List.mem_append.mpr (Or.inr hr), hin⟩

theorem merge_perm (a b : List CharRange) : (mergeRanges a b).Perm (a ++ b) := by
  induction a, b using mergeRanges.induct with
  | case1 b => rw [mergeRanges]; exact (List.Perm.refl b)
  | case2 a h =>
    rw [mergeRanges]
    · simp
    · exact h
  | case3 ra ta rb tb hle ih =>
    rw [mergeRanges, if_pos hle]
    exact List.Perm.cons ra ih
  | case4 ra ta rb tb hgt ih =>
    rw [mergeRanges, if_neg hgt]
    exact (List.Perm.cons rb ih).trans List.perm_middle.symm

theorem merge_sorted {a b : List CharRange} (ha : SortedMins a) (hb : SortedMins b) :
    SortedMins (mergeRanges a b) := by
  induction a, b using mergeRanges.induct with
  | case1 b => rw [mergeRanges]; exact hb
  | case2 a h =>
    rw [mergeRanges]
    · exact ha
    · exact h
  | case3 ra ta rb tb hle ih =>
    rw [mergeRanges, if_pos hle]
    have ha1 := List.pairwise_cons.mp ha
    refine List.Pairwise.cons ?_ (ih ha1.2 hb)
    intro x hx
    rcases List.mem_append.mp ((merge_perm ta (rb :: tb)).mem_iff.mp hx) with hx1 | hx1
    · exact ha1.1 x hx1
    · rcases List.mem_cons.mp hx1 with rfl | hx2
      · exact hle
      · exact le_trans hle ((List.pairwise_cons.mp hb).1 x hx2)
  | case4 ra ta rb tb hgt ih =>
    rw [mergeRanges, if_neg hgt]
    have hb1 := List.pairwise_cons.mp hb
    refine List.Pairwise.cons ?_ (ih ha hb1.2)
    intro x hx
    rcases List.mem_append.mp ((merge_perm (ra :: ta) tb).mem_iff.mp hx) with hx1 | hx1
    · rcases List.mem_cons.mp hx1 with rfl | hx2
      · omega
      · have h3 := (List.pairwise_cons.mp ha).1 x hx2
        omega
    · exact hb1.1 x hx1

/-- `unionRanges` on two normal-form lists: normal form out, and it covers
exactly the union of the two coverages. -/
theorem unionRanges_spec {m : Nat} {a b : List CharRange}
    (hsa : SortedMins a) (hva : RValid a) (hba : RBnd m a)
    (hsb : SortedMins b) (hvb : RValid b) (hbb : RBnd m b) :
    (SortedMins (unionRanges a b) ∧ RChain (unionRanges a b) ∧
      RValid (unionRanges a b) ∧ RBnd m (unionRanges a b)) ∧
      ∀ ch, covers (unionRanges a b) ch ↔ covers a ch ∨ covers b ch := by
  have hv : RValid (mergeRanges a b) := by
    intro r hr
    rcases List.mem_append.mp ((merge_perm a b).mem_iff.mp hr) with h | h
    · exact hva r h
    · exact hvb r h
  have hbnd : RBnd m (mergeRanges a b) := by
    intro r hr
    rcases List.mem_append.mp ((merge_perm a b).mem_iff.mp hr) with h | h
    · exact hba r h
    · exact hbb r h
  rcases osr_spec (m := m) (mergeRanges a b) (merge_sorted hsa hsb) hv hbnd with ⟨hnf, hcov⟩
  refine ⟨hnf, fun ch => ((hcov ch).trans (covers_perm (merge_perm a b) ch)).trans covers_append⟩

/-! ## Tail helpers -/

theorem RChain_tail {r : CharRange} {rs : List CharRange} (h : RChain (r :: rs)) : RChain rs :=
  List.Chain'.tail h

theorem RValid_tail {r : CharRange} {rs : List CharRange} (h : RValid (r :: rs)) : RValid rs :=
  fun x hx => h x (List.mem_cons_of_mem _ hx)

theorem RBnd_tail {m : Nat} {r : CharRange} {rs : List CharRange} (h : RBnd m (r :: rs)) :
    RBnd m rs :=
  fun x hx => h x (List.mem_cons_of_mem _ hx)

theorem SortedMins_tail {r : CharRange} {rs : List CharRange} (h : SortedMins (r :: rs)) :
    SortedMins rs :=
  (List.pairwise_cons.mp h).2

/-! ## `intersectRanges` -/

theorem intersect_lb_left (k : Nat) : ∀ (a b : List CharRange),
    (∀ r ∈ a, k ≤ r.min) → ∀ r ∈ intersectRanges a b, k ≤ r.min := by
  intro a b
  induction a, b using intersectRanges.induct with
  | case1 b =>
    intro _ r hr
    rw [intersectRanges] at hr
    cases hr
  | case2 =>
    intro _ r hr
    rw [intersectRanges] at hr
    cases hr
  | case3 ra ta rb tb hlt ih =>
    intro h r hr
    rw [intersectRanges, if_pos hlt] at hr
    exact ih (fun x hx => h x (List.mem_cons_of_mem _ hx)) r hr
  | case4 ra ta rb tb hlt hlt2 ih =>
    intro h r hr
    rw [intersectRanges, if_neg hlt, if_pos hlt2] at hr
    exact ih h r hr
  | case5 ra ta rb tb hlt hlt2 ih1 ih2 ih3 =>
    intro h r hr
    rw [intersectRanges, if_neg hlt, if_neg hlt2] at hr
    rcases List.mem_cons.mp hr with rfl | hr2
    · exact le_trans (h ra (by simp)) (Nat.le_max_left _ _)
    · split at hr2
      · exact ih1 (fun x hx => h x (List.mem_cons_of_mem _ hx)) r hr2
      · split at hr2
        · exact ih2 h r hr2
        · exact ih3 (fun x hx => h x (List.mem_cons_of_mem _ hx)) r hr2

theorem intersect_lb_right (k : Nat) : ∀ (a b : List CharRange),
    (∀ r ∈ b, k ≤ r.min) → ∀ r ∈ intersectRanges a b, k ≤ r.min := by
  intro a b
  induction a, b using intersectRanges.induct with
  | case1 b =>
    intro _ r hr
    rw [intersectRanges] at hr
    cases hr
  | case2 =>
    intro _ r hr
    rw [intersectRanges] at hr
    cases hr
  | case3 ra ta rb tb hlt ih =>
    intro h r hr
    rw [intersectRanges, if_pos hlt] at hr
    exact ih h r hr
  | case4 ra ta rb tb hlt hlt2 ih =>
    intro h r hr
    rw [intersectRanges, if_neg hlt, if_pos hlt2] at hr
    exact ih (fun x hx => h x (List.mem_cons_of_mem _ hx)) r hr
  | case5 ra ta rb tb hlt hlt2 ih1 ih2 ih3 =>
    intro h r hr
    rw [intersectRanges, if_neg hlt, if_neg hlt2] at hr
    rcases List.mem_cons.mp hr with rfl | hr2
    · exact le_trans (h rb (by simp)) (Nat.le_max_right _ _)
    · split at hr2
      · exact ih1 h r hr2
      · split at hr2
        · exact ih2 (fun x hx => h x (List.mem_cons_of_mem _ hx)) r hr2
        · exact ih3 (fun x hx => h x (List.mem_cons_of_mem _ hx)) r hr2

/-- `intersectRanges` keeps the normal form (chain, validity, bound by the
receiver maximum). -/
theorem intersect_nf {m : Nat} : ∀ (a b : List CharRange),
    RChain a → RValid a → RBnd m a → RChain b → RValid b →
    RChain (intersectRanges a b) ∧ RValid (intersectRanges a b) ∧
      RBnd m (intersectRanges a b) := by
  intro a b
  induction a, b using intersectRanges.induct with
  | case1 b =>
    intro _ _ _ _ _
    rw [intersectRanges]
    exact ⟨List.chain'_nil, fun r h => absurd h (by simp), fun r h => absurd h (by simp)⟩
  | case2 =>
    intro _ _ _ _ _
    rw [intersectRanges]
    exact ⟨List.chain'_nil, fun r h => absurd h (by simp), fun r h => absurd h (by simp)⟩
  | case3 ra ta rb tb hlt ih =>
    intro hca hva hba hcb hvb
    rw [intersectRanges, if_pos hlt]
    exact ih (RChain_tail hca) (RValid_tail hva) (RBnd_tail hba) hcb hvb
  | case4 ra ta rb tb hlt hlt2 ih =>
    intro hca hva hba hcb hvb
    rw [intersectRanges, if_neg hlt, if_pos hlt2]
    exact ih hca hva hba (RChain_tail hcb) (RValid_tail hvb)
  | case5 ra ta rb tb hlt hlt2 ih1 ih2 ih3 =>
    intro hca hva hba hcb hvb
    rw [intersectRanges, if_neg hlt, if_neg hlt2]
    have hvra := hva ra (by simp)
    have hvrb := hvb rb (by simp)
    have hbra := hba ra (by simp)
    by_cases h3 : ra.max < rb.max
    · rw [if_pos h3]
      have hrec := ih1 (RChain_tail hca) (RValid_tail hva) (RBnd_tail hba) hcb hvb
      refine ⟨?_, ?_, ?_⟩
      · rw [RChain, List.chain'_cons']
        refine ⟨?_, hrec.1⟩
        intro x hx
        have hlb := intersect_lb_left (ra.max + 2) ta (rb :: tb)
          (fun y hy => by have := chain_head_lt hca hva y hy; omega) x
          (List.mem_of_mem_head? hx)
        show min ra.max rb.max + 1 < x.min
        omega
      · intro r hr
        rcases List.mem_cons.mp hr with rfl | hr2
        · show max ra.min rb.min ≤ min ra.max rb.max
          omega
        · exact hrec.2.1 r hr2
      · intro r hr
        rcases List.mem_cons.mp hr with rfl | hr2
        · show min ra.max rb.max ≤ m
          omega
        · exact hrec.2.2 r hr2
    · by_cases h4 : rb.max < ra.max
      · rw [if_neg h3, if_pos h4]
        have hrec := ih2 hca hva hba (RChain_tail hcb) (RValid_tail hvb)
        refine ⟨?_, ?_, ?_⟩
        · rw [RChain, List.chain'_cons']
          refine ⟨?_, hrec.1⟩
          intro x hx
          have hlb := intersect_lb_right (rb.max + 2) (ra :: ta) tb
            (fun y hy => by have := chain_head_lt hcb hvb y hy; omega) x
            (List.mem_of_mem_head? hx)
          show min ra.max rb.max + 1 < x.min
          omega
        · intro r hr
          rcases List.mem_cons.mp hr with rfl | hr2
          · show max ra.min rb.min ≤ min ra.max rb.max
            omega
          · exact hrec.2.1 r hr2
        · intro r hr
          rcases List.mem_cons.mp hr with rfl | hr2
          · show min ra.max rb.max ≤ m
            omega
          · exact hrec.2.2 r hr2
      · rw [if_neg h3, if_neg h4]
        have hrec := ih3 (RChain_tail hca) (RValid_tail hva) (RBnd_tail hba)
          (RChain_tail hcb) (RValid_tail hvb)
        refine ⟨?_, ?_, ?_⟩
        · rw [RChain, List.chain'_cons']
          refine ⟨?_, hrec.1⟩
          intro x hx
          have hlb := intersect_lb_left (ra.max + 2) ta tb
            (fun y hy => by have := chain_head_lt hca hva y hy; omega) x
            (List.mem_of_mem_head? hx)
          show min ra.max rb.max + 1 < x.min
          omega
        · intro r hr
          rcases List.mem_cons.mp hr with rfl | hr2
          · show max ra.min rb.min ≤ min ra.max rb.max
            omega
          · exact hrec.2.1 r hr2
        · intro r hr
          rcases List.mem_cons.mp hr with rfl | hr2
          · show min ra.max rb.max ≤ m
            omega
          · exact hrec.2.2 r hr2

/-! ## `withoutRanges` -/

theorem without_lb (k : Nat) : ∀ (a b : List CharRange),
    (∀ r ∈ a, k ≤ r.min) → ∀ r ∈ withoutRanges a b, k ≤ r.min := by
  intro a b
  induction a, b using withoutRanges.induct with
  | case1 b =>
    intro _ r hr
    rw [withoutRanges] at hr
    cases hr
  | case2 a hne =>
    intro h r hr
    rw [withoutRanges] at hr
    · exact h r hr
    · exact hne
  | case3 ra ta rb tb hlt ih =>
    intro h r hr
    rw [withoutRanges, if_pos hlt] at hr
    rcases List.mem_cons.mp hr with rfl | hr2
    · exact h r (by simp)
    · exact ih (fun x hx => h x (List.mem_cons_of_mem _ hx)) r hr2
  | case4 ra ta rb tb hlt hlt2 ih =>
    intro h r hr
    rw [withoutRanges, if_neg hlt, if_pos hlt2] at hr
    exact ih h r hr
  | case5 ra ta rb tb hlt hlt2 hmin ih1 ih2 =>
    intro h r hr
    rw [withoutRanges, if_neg hlt, if_neg hlt2, if_pos hmin] at hr
    have hra := h ra (by simp)
    rcases List.mem_cons.mp hr with rfl | hr2
    · exact hra
    · split at hr2
      · refine ih1 ?_ r hr2
        intro x hx
        rcases List.mem_cons.mp hx with rfl | hx2
        · show k ≤ rb.max + 1
          omega
        · exact h x (List.mem_cons_of_mem _ hx2)
      · exact ih2 (fun x hx => h x (List.mem_cons_of_mem _ hx)) r hr2
  | case6 ra ta rb tb hlt hlt2 hmin h5 ih =>
    intro h r hr
    rw [withoutRanges, if_neg hlt, if_neg hlt2, if_neg hmin, if_pos h5] at hr
    have hra := h ra (by simp)
    refine ih ?_ r hr
    intro x hx
    rcases List.mem_cons.mp hx with rfl | hx2
    · show k ≤ rb.max + 1
      omega
    · exact h x (List.mem_cons_of_mem _ hx2)
  | case7 ra ta rb tb hlt hlt2 hmin h5 ih =>
    intro h r hr
    rw [withoutRanges, if_neg hlt, if_neg hlt2, if_neg hmin, if_neg h5] at hr
    exact ih (fun x hx => h x (List.mem_cons_of_mem _ hx)) r hr

/-- `withoutRanges` keeps the normal form. Only the validity of the
subtrahend list is needed on the `b` side. -/
theorem without_nf {m : Nat} : ∀ (a b : List CharRange),
    RChain a → RValid a → RBnd m a → RValid b →
    RChain (withoutRanges a b) ∧ RValid (withoutRanges a b) ∧
      RBnd m (withoutRanges a b) := by
  intro a b
  induction a, b using withoutRanges.induct with
  | case1 b =>
    intro _ _ _ _
    rw [withoutRanges]
    exact ⟨List.chain'_nil, fun r h => absurd h (by simp), fun r h => absurd h (by simp)⟩
  | case2 a hne =>
    intro hca hva hba _
    rw [withoutRanges]
    · exact ⟨hca, hva, hba⟩
    · exact hne
  | case3 ra ta rb tb hlt ih =>
    intro hca hva hba hvb
    rw [withoutRanges, if_pos hlt]
    have hrec := ih (RChain_tail hca) (RValid_tail hva) (RBnd_tail hba) hvb
    refine ⟨?_, ?_, ?_⟩
    · rw [RChain, List.chain'_cons']
      refine ⟨?_, hrec.1⟩
      intro x hx
      have hlb := without_lb (ra.max + 2) ta (rb :: tb)
        (fun y hy => by have := chain_head_lt hca hva y hy; omega) x
        (List.mem_of_mem_head? hx)
      omega
    · intro r hr
      rcases List.mem_cons.mp hr with rfl | hr2
      · exact hva r (by simp)
      · exact hrec.2.1 r hr2
    · intro r hr
      rcases List.mem_cons.mp hr with rfl | hr2
      · exact hba r (by simp)
      · exact hrec.2.2 r hr2
  | case4 ra ta rb tb hlt hlt2 ih =>
    intro hca hva hba hvb
    rw [withoutRanges, if_neg hlt, if_pos hlt2]
    exact ih hca hva hba (RValid_tail hvb)
  | case5 ra ta rb tb hlt hlt2 hmin ih1 ih2 =>
    intro hca hva hba hvb
    rw [withoutRanges, if_neg hlt, if_neg hlt2, if_pos hmin]
    have hvra := hva ra (by simp)
    have hvrb := hvb rb (by simp)
    have hbra := hba ra (by simp)
    by_cases h5 : rb.max < ra.max
    · rw [if_pos h5]
      have hmod : RChain (CharRange.mk (rb.max + 1) ra.max :: ta) := by
        rw [RChain, List.chain'_cons']
        refine ⟨?_, RChain_tail hca⟩
        intro x hx
        have := chain_head_lt hca hva x (List.mem_of_mem_head? hx)
        show ra.max + 1 < x.min
        omega
      have hmodv : RValid (CharRange.mk (rb.max + 1) ra.max :: ta) := by
        intro x hx
        rcases List.mem_cons.mp hx with rfl | hx2
        · show rb.max + 1 ≤ ra.max
          omega
        · exact hva x (List.mem_cons_of_mem _ hx2)
      have hmodb : RBnd m (CharRange.mk (rb.max + 1) ra.max :: ta) := by
        intro x hx
        rcases List.mem_cons.mp hx with rfl | hx2
        · exact hbra
        · exact hba x (List.mem_cons_of_mem _ hx2)
      have hrec := ih1 hmod hmodv hmodb (RValid_tail hvb)
      refine ⟨?_, ?_, ?_⟩
      · rw [RChain, List.chain'_cons']
        refine ⟨?_, hrec.1⟩
        intro x hx
        have hlb := without_lb (rb.max + 1) (CharRange.mk (rb.max + 1) ra.max :: ta) tb
          (fun y hy => by
            rcases List.mem_cons.mp hy with rfl | hy2
            · exact Nat.le_refl _
            · have := chain_head_lt hca hva y hy2
              omega) x (List.mem_of_mem_head? hx)
        show rb.min - 1 + 1 < x.min
        omega
      · intro r hr
        rcases List.mem_cons.mp hr with rfl | hr2
        · show ra.min ≤ rb.min - 1
          omega
        · exact hrec.2.1 r hr2
      · intro r hr
        rcases List.mem_cons.mp hr with rfl | hr2
        · show rb.min - 1 ≤ m
          omega
        · exact hrec.2.2 r hr2
    · rw [if_neg h5]
      have hrec := ih2 (RChain_tail hca) (RValid_tail hva) (RBnd_tail hba) hvb
      refine ⟨?_, ?_, ?_⟩
      · rw [RChain, List.chain'_cons']
        refine ⟨?_, hrec.1⟩
        intro x hx
        have hlb := without_lb (ra.max + 2) ta (rb :: tb)
          (fun y hy => by have := chain_head_lt hca hva y hy; omega) x
          (List.mem_of_mem_head? hx)
        show rb.min - 1 + 1 < x.min
        omega
      · intro r hr
        rcases List.mem_cons.mp hr with rfl | hr2
        · show ra.min ≤ rb.min - 1
          omega
        · exact hrec.2.1 r hr2
      · intro r hr
        rcases List.mem_cons.mp hr with rfl | hr2
        · show rb.min - 1 ≤ m
          omega
        · exact hrec.2.2 r hr2
  | case6 ra ta rb tb hlt hlt2 hmin h5 ih =>
    intro hca hva hba hvb
    rw [withoutRanges, if_neg hlt, if_neg hlt2, if_neg hmin, if_pos h5]
    have hbra := hba ra (by simp)
    have hmod : RChain (CharRange.mk (rb.max + 1) ra.max :: ta) := by
      rw [RChain, List.chain'_cons']
      refine ⟨?_, RChain_tail hca⟩
      intro x hx
      have := chain_head_lt hca hva x (List.mem_of_mem_head? hx)
      show ra.max + 1 < x.min
      omega
    have hmodv : RValid (CharRange.mk (rb.max + 1) ra.max :: ta) := by
      intro x hx
      rcases List.mem_cons.mp hx with rfl | hx2
      · show rb.max + 1 ≤ ra.max
        omega
      · exact hva x (List.mem_cons_of_mem _ hx2)
    have hmodb : RBnd m (CharRange.mk (rb.max + 1) ra.max :: ta) := by
      intro x hx
      rcases List.mem_cons.mp hx with rfl | hx2
      · exact hbra
      · exact hba x (List.mem_cons_of_mem _ hx2)
    exact ih hmod hmodv hmodb (RValid_tail hvb)
  | case7 ra ta rb tb hlt hlt2 hmin h5 ih =>
    intro hca hva hba hvb
    rw [withoutRanges, if_neg hlt, if_neg hlt2, if_neg hmin, if_neg h5]
    exact ih (RChain_tail hca) (RValid_tail hva) (RBnd_tail hba) hvb

/-- Semantics of `withoutRanges`: set difference of the coverages, for
normal-form inputs. -/
theorem without_covers : ∀ (a b : List CharRange),
    RChain a → RValid a → RChain b → RValid b →
    ∀ ch, covers (withoutRanges a b) ch ↔ (covers a ch ∧ ¬ covers b ch) := by
  intro a b
  induction a, b using withoutRanges.induct with
  | case1 b =>
    intro _ _ _ _ ch
    rw [withoutRanges, covers_nil]
    simp [covers_nil]
  | case2 a hne =>
    intro _ _ _ _ ch
    rw [withoutRanges]
    · simp [covers_nil]
    · exact hne
  | case3 ra ta rb tb hlt ih =>
    intro hca hva hcb hvb ch
    rw [withoutRanges, if_pos hlt, covers_cons,
      ih (RChain_tail hca) (RValid_tail hva) hcb hvb ch, covers_cons, covers_cons]
    have hsb := sortedMins_of_chain hcb hvb
    constructor
    · rintro (h | ⟨h1, h2⟩)
      · refine ⟨Or.inl h, ?_⟩
        rintro (hh | hh)
        · rcases h with ⟨q1, q2⟩
          rcases hh with ⟨q3, q4⟩
          omega
        · have hx := covers_tail_lb hcb hvb hh
          rcases h with ⟨q1, q2⟩
          have hq := hvb rb (by simp)
          omega
      · exact ⟨Or.inr h1, h2⟩
    · rintro ⟨h1 | h1, h2⟩
      · exact Or.inl h1
      · exact Or.inr ⟨h1, h2⟩
  | case4 ra ta rb tb hlt hlt2 ih =>
    intro hca hva hcb hvb ch
    rw [withoutRanges, if_neg hlt, if_pos hlt2,
      ih hca hva (RChain_tail hcb) (RValid_tail hvb) ch]
    have hsa := sortedMins_of_chain hca hva
    constructor
    · rintro ⟨h1, h2⟩
      refine ⟨h1, ?_⟩
      intro hh
      rcases covers_cons.mp hh with hh1 | hh1
      · have := covers_lb hsa h1
        rcases hh1 with ⟨q1, q2⟩
        omega
      · exact h2 hh1
    · rintro ⟨h1, h2⟩
      exact ⟨h1, fun hh => h2 (covers_cons.mpr (Or.inr hh))⟩
  | case5 ra ta rb tb hlt hlt2 hmin ih1 ih2 =>
    intro hca hva hcb hvb ch
    rw [withoutRanges, if_neg hlt, if_neg hlt2, if_pos hmin]
    have hvra := hva ra (by simp)
    have hvrb := hvb rb (by simp)
    have fa : covers ta ch → ra.max + 1 ≤ ch := fun h => by
      have := covers_tail_lb hca hva h
      omega
    have fb : covers tb ch → rb.max + 1 ≤ ch := fun h => by
      have := covers_tail_lb hcb hvb h
      omega
    by_cases h5 : rb.max < ra.max
    · rw [if_pos h5]
      have hmod : RChain (CharRange.mk (rb.max + 1) ra.max :: ta) := by
        rw [RChain, List.chain'_cons']
        refine ⟨?_, RChain_tail hca⟩
        intro x hx
        have := chain_head_lt hca hva x (List.mem_of_mem_head? hx)
        show ra.max + 1 < x.min
        omega
      have hmodv : RValid (CharRange.mk (rb.max + 1) ra.max :: ta) := by
        intro x hx
        rcases List.mem_cons.mp hx with rfl | hx2
        · show rb.max + 1 ≤ ra.max
          omega
        · exact hva x (List.mem_cons_of_mem _ hx2)
      rw [covers_cons, ih1 hmod hmodv (RChain_tail hcb) (RValid_tail hvb) ch,
        covers_cons, covers_cons, covers_cons]
      simp only [inR]
      constructor
      · rintro (⟨q1, q2⟩ | ⟨⟨q1, q2⟩ | h1, h2⟩)
        · refine ⟨Or.inl ⟨q1, by omega⟩, ?_⟩
          rintro (⟨q3, q4⟩ | hh)
          · omega
          · have := fb hh
            omega
        · refine ⟨Or.inl ⟨by omega, by omega⟩, ?_⟩
          rintro (⟨q3, q4⟩ | hh)
          · omega
          · exact h2 hh
        · refine ⟨Or.inr h1, ?_⟩
          rintro (⟨q3, q4⟩ | hh)
          · have := fa h1
            omega
          · exact h2 hh
      · rintro ⟨⟨q1, q2⟩ | h1, h2⟩
        · by_cases hc : ch < rb.min
          · exact Or.inl ⟨q1, by omega⟩
          · have hnb : ¬(rb.min ≤ ch ∧ ch ≤ rb.max) := fun hh => h2 (Or.inl hh)
            refine Or.inr ⟨Or.inl ⟨?_, ?_⟩, fun hh => h2 (Or.inr hh)⟩
            · show rb.max + 1 ≤ ch
              omega
            · show ch ≤ ra.max
              omega
        · exact Or.inr ⟨Or.inr h1, fun hh => h2 (Or.inr hh)⟩
    · rw [if_neg h5]
      rw [covers_cons, ih2 (RChain_tail hca) (RValid_tail hva) hcb hvb ch,
        covers_cons, covers_cons]
      simp only [inR]
      constructor
      · rintro (⟨q1, q2⟩ | ⟨h1, h2⟩)
        · refine ⟨Or.inl ⟨q1, by omega⟩, ?_⟩
          rintro (⟨q3, q4⟩ | hh)
          · omega
          · have := fb hh
            omega
        · exact ⟨Or.inr h1, h2⟩
      · rintro ⟨⟨q1, q2⟩ | h1, h2⟩
        · have hnb : ¬(rb.min ≤ ch ∧ ch ≤ rb.max) := fun hh => h2 (Or.inl hh)
          exact Or.inl ⟨q1, by omega⟩
        · exact Or.inr ⟨h1, h2⟩
  | case6 ra ta rb tb hlt hlt2 hmin h5 ih =>
    intro hca hva hcb hvb ch
    rw [withoutRanges, if_neg hlt, if_neg hlt2, if_neg hmin, if_pos h5]
    have hvra := hva ra (by simp)
    have hvrb := hvb rb (by simp)
    have fa : covers ta ch → ra.max + 1 ≤ ch := fun h => by
      have := covers_tail_lb hca hva h
      omega
    have fb : covers tb ch → rb.max + 1 ≤ ch := fun h => by
      have := covers_tail_lb hcb hvb h
      omega
    have hmod : RChain (CharRange.mk (rb.max + 1) ra.max :: ta) := by
      rw [RChain, List.chain'_cons']
      refine ⟨?_, RChain_tail hca⟩
      intro x hx
      have := chain_head_lt hca hva x (List.mem_of_mem_head? hx)
      show ra.max + 1 < x.min
      omega
    have hmodv : RValid (CharRange.mk (rb.max + 1) ra.max :: ta) := by
      intro x hx
      rcases List.mem_cons.mp hx with rfl | hx2
      · show rb.max + 1 ≤ ra.max
        omega
      · exact hva x (List.mem_cons_of_mem _ hx2)
    rw [ih hmod hmodv (RChain_tail hcb) (RValid_tail hvb) ch,
      covers_cons, covers_cons, covers_cons]
    simp only [inR]
    constructor
    · rintro ⟨⟨q1, q2⟩ | h1, h2⟩
      · refine ⟨Or.inl ⟨by omega, q2⟩, ?_⟩
        rintro (⟨q3, q4⟩ | hh)
        · omega
        · exact h2 hh
      · refine ⟨Or.inr h1, ?_⟩
        rintro (⟨q3, q4⟩ | hh)
        · have := fa h1
          omega
        · exact h2 hh
    · rintro ⟨⟨q1, q2⟩ | h1, h2⟩
      · have hnb : ¬(rb.min ≤ ch ∧ ch ≤ rb.max) := fun hh => h2 (Or.inl hh)
        refine ⟨Or.inl ⟨?_, ?_⟩, fun hh => h2 (Or.inr hh)⟩
        · show rb.max + 1 ≤ ch
          omega
        · show ch ≤ ra.max
          omega
      · exact ⟨Or.inr h1, fun hh => h2 (Or.inr hh)⟩
  | case7 ra ta rb tb hlt hlt2 hmin h5 ih =>
    intro hca hva hcb hvb ch
    rw [withoutRanges, if_neg hlt, if_neg hlt2, if_neg hmin, if_neg h5]
    have hvra := hva ra (by simp)
    have hvrb := hvb rb (by simp)
    have fa : covers ta ch → ra.max + 1 ≤ ch := fun h => by
      have := covers_tail_lb hca hva h
      omega
    rw [ih (RChain_tail hca) (RValid_tail hva) hcb hvb ch,
      covers_cons, covers_cons]
    simp only [inR]
    constructor
    · rintro ⟨h1, h2⟩
      exact ⟨Or.inr h1, h2⟩
    · rintro ⟨⟨q1, q2⟩ | h1, h2⟩
      · exfalso
        exact h2 (Or.inl ⟨by omega, by omega⟩)
      · exact ⟨h1, h2⟩

/-! ## `isSupersetOfRanges` correctness -/

theorem isSup_correct : ∀ (a b : List CharRange),
    RChain a → RValid a → RChain b → RValid b →
    (isSupersetOfRanges a b = true ↔ ∀ ch, covers b ch → covers a ch) := by
  intro a b
  induction a, b using isSupersetOfRanges.induct with
  | case1 a =>
    intro _ _ _ _
    rw [isSupersetOfRanges]
    simp only [true_iff]
    intro ch hcov
    rw [covers_nil] at hcov
    cases hcov
  | case2 ro tlo =>
    intro _ _ hcb hvb
    rw [isSupersetOfRanges]
    refine iff_of_false (by simp) ?_
    intro hall
    have hw : covers (ro :: tlo) ro.min := ⟨ro, by simp, le_refl _, hvb ro (by simp)⟩
    rcases hall ro.min hw with ⟨x, hx, _⟩
    cases hx
  | case3 rt tt ro tlo hcond ih =>
    intro hca hva hcb hvb
    rw [isSupersetOfRanges, if_pos hcond,
      ih hca hva (RChain_tail hcb) (RValid_tail hvb)]
    obtain ⟨hc1, hc2⟩ := hcond
    constructor
    · intro hall ch hcov
      rcases covers_cons.mp hcov with ⟨q1, q2⟩ | hh
      · exact covers_cons.mpr (Or.inl ⟨by omega, by omega⟩)
      · exact hall ch hh
    · intro hall ch hcov
      exact hall ch (covers_cons.mpr (Or.inr hcov))
  | case4 rt tt ro tlo hcond hlt ih =>
    intro hca hva hcb hvb
    rw [isSupersetOfRanges, if_neg (by exact hcond), if_pos hlt,
      ih (RChain_tail hca) (RValid_tail hva) hcb hvb]
    have hsb := sortedMins_of_chain hcb hvb
    constructor
    · intro hall ch hcov
      exact covers_cons.mpr (Or.inr (hall ch hcov))
    · intro hall ch hcov
      rcases covers_cons.mp (hall ch hcov) with ⟨q1, q2⟩ | hh
      · have h2 := covers_lb hsb hcov
        omega
      · exact hh
  | case5 rt tt ro tlo hcond hlt =>
    intro hca hva hcb hvb
    rw [isSupersetOfRanges, if_neg (by exact hcond), if_neg hlt]
    refine iff_of_false (by simp) ?_
    intro hall
    have hvro := hvb ro (by simp)
    have hvrt := hva rt (by simp)
    by_cases hc1 : ro.min < rt.min
    · have hw : covers (ro :: tlo) ro.min := ⟨ro, by simp, le_refl _, hvro⟩
      rcases covers_cons.mp (hall ro.min hw) with ⟨q1, q2⟩ | hh
      · omega
      · have h3 := covers_tail_lb hca hva hh
        omega
    · have hc2 : rt.max < ro.max := by
        rcases Decidable.not_and_iff_or_not.mp hcond with h | h
        · omega
        · omega
      have hw : covers (ro :: tlo) (rt.max + 1) :=
        covers_cons.mpr (Or.inl ⟨by omega, by omega⟩)
      rcases covers_cons.mp (hall (rt.max + 1) hw) with ⟨q1, q2⟩ | hh
      · omega
      · rcases hh with ⟨x, hx, q1, q2⟩
        have := chain_head_lt hca hva x hx
        omega

/-! ## `negateRanges` -/

/-- Proof-internal tail of the negation: the inner gaps of `first :: rest`
followed by the trailing gap. `negTail m first rest` equals the part of
`negateRanges (first :: rest) m` after the leading gap. -/
def negTail (m : Nat) : CharRange → List CharRange → List CharRange
  | first, [] => if first.max < m then [⟨first.max + 1, m⟩] else []
  | first, b :: rest => ⟨first.max + 1, b.min - 1⟩ :: negTail m b rest

theorem negTail_eq (m : Nat) : ∀ (rest : List CharRange) (first : CharRange),
    negTail m first rest =
      gapsBetween (first :: rest) ++
        (if ((first :: rest).getLast (by simp)).max < m then
          [⟨((first :: rest).getLast (by simp)).max + 1, m⟩] else []) := by
  intro rest
  induction rest with
  | nil =>
    intro first
    rw [negTail, gapsBetween]
    simp [List.getLast]
  | cons b rest2 ih =>
    intro first
    rw [negTail, gapsBetween, ih b, List.cons_append]
    have hgl : (first :: b :: rest2).getLast (by simp) = (b :: rest2).getLast (by simp) := by
      rw [List.getLast_cons (by simp)]
    rw [hgl]

theorem negTail_spec (m : Nat) : ∀ (rest : List CharRange) (first : CharRange),
    RChain (first :: rest) → RValid (first :: rest) → RBnd m (first :: rest) →
    (RChain (negTail m first rest) ∧ RValid (negTail m first rest) ∧
      RBnd m (negTail m first rest)) ∧
      ∀ x ∈ negTail m first rest, first.max + 1 ≤ x.min := by
  intro rest
  induction rest with
  | nil =>
    intro first hc hv hb
    rw [negTail]
    split
    · refine ⟨⟨?_, ?_, ?_⟩, ?_⟩
      · rw [RChain]
        exact List.chain'_singleton _
      · intro r hr
        rcases List.mem_cons.mp hr with rfl | hr2
        · show first.max + 1 ≤ m
          omega
        · cases hr2
      · intro r hr
        rcases List.mem_cons.mp hr with rfl | hr2
        · exact Nat.le_refl m
        · cases hr2
      · intro x hx
        rcases List.mem_cons.mp hx with rfl | hx2
        · exact Nat.le_refl _
        · cases hx2
    · exact ⟨⟨List.chain'_nil, fun r h => absurd h (by simp), fun r h => absurd h (by simp)⟩,
        fun x hx => absurd hx (by simp)⟩
  | cons b rest2 ih =>
    intro first hc hv hb
    rw [negTail]
    have hc2 : RChain (b :: rest2) := RChain_tail hc
    have hv2 : RValid (b :: rest2) := RValid_tail hv
    have hb2 : RBnd m (b :: rest2) := RBnd_tail hb
    have hgap : first.max + 1 < b.min := by
      have := chain_head_lt hc hv b (by simp)
      omega
    have hbv : b.min ≤ b.max := hv b (by simp)
    have hbb : b.max ≤ m := hb b (by simp)
    rcases ih b hc2 hv2 hb2 with ⟨⟨ihc, ihv, ihb⟩, ihlb⟩
    refine ⟨⟨?_, ?_, ?_⟩, ?_⟩
    · rw [RChain, List.chain'_cons']
      refine ⟨?_, ihc⟩
      intro x hx
      have := ihlb x (List.mem_of_mem_head? hx)
      show b.min - 1 + 1 < x.min
      omega
    · intro r hr
      rcases List.mem_cons.mp hr with rfl | hr2
      · show first.max + 1 ≤ b.min - 1
        omega
      · exact ihv r hr2
    · intro r hr
      rcases List.mem_cons.mp hr with rfl | hr2
      · show b.min - 1 ≤ m
        omega
      · exact ihb r hr2
    · intro x hx
      rcases List.mem_cons.mp hx with rfl | hx2
      · exact Nat.le_refl _
      · have := ihlb x hx2
        omega

/-- `negateRanges` keeps the normal form. -/
theorem negate_nf {m : Nat} (rs : List CharRange) (hc : RChain rs) (hv : RValid rs)
    (hb : RBnd m rs) :
    RChain (negateRanges rs m) ∧ RValid (negateRanges rs m) ∧
      RBnd m (negateRanges rs m) := by
  cases rs with
  | nil =>
    rw [negateRanges]
    refine ⟨?_, ?_, ?_⟩
    · rw [RChain]
      exact List.chain'_singleton _
    · intro r hr
      rcases List.mem_cons.mp hr with rfl | hr2
      · exact Nat.zero_le _
      · cases hr2
    · intro r hr
      rcases List.mem_cons.mp hr with rfl | hr2
      · exact Nat.le_refl _
      · cases hr2
  | cons first rest =>
    have heq : negateRanges (first :: rest) m =
        (if 0 < first.min then [CharRange.mk 0 (first.min - 1)] else []) ++
          negTail m first rest := by
      rw [negateRanges, negTail_eq, List.append_assoc]
    rcases negTail_spec m rest first hc hv hb with ⟨⟨hcT, hvT, hbT⟩, hlbT⟩
    have hfv : first.min ≤ first.max := hv first (by simp)
    have hfb : first.max ≤ m := hb first (by simp)
    rw [heq]
    by_cases h0 : 0 < first.min
    · rw [if_pos h0, List.singleton_append]
      refine ⟨?_, ?_, ?_⟩
      · rw [RChain, List.chain'_cons']
        refine ⟨?_, hcT⟩
        intro x hx
        have := hlbT x (List.mem_of_mem_head? hx)
        show first.min - 1 + 1 < x.min
        omega
      · intro r hr
        rcases List.mem_cons.mp hr with rfl | hr2
        · exact Nat.zero_le _
        · exact hvT r hr2
      · intro r hr
        rcases List.mem_cons.mp hr with rfl | hr2
        · show first.min - 1 ≤ m
          omega
        · exact hbT r hr2
    · rw [if_neg h0, List.nil_append]
      exact ⟨hcT, hvT, hbT⟩

/-! ## Canonicity of the normal form -/

theorem covers_canonical : ∀ (a b : List CharRange), RChain a → RValid a →
    RChain b → RValid b → (∀ ch, covers a ch ↔ covers b ch) → a = b := by
  intro a
  induction a with
  | nil =>
    intro b _ _ hcb hvb hiff
    cases b with
    | nil => rfl
    | cons rb tb =>
      exfalso
      have hw : covers (rb :: tb) rb.min := ⟨rb, by simp, le_refl _, hvb rb (by simp)⟩
      rcases (hiff rb.min).mpr hw with ⟨x, hx, _⟩
      cases hx
  | cons ra ta ih =>
    intro b hca hva hcb hvb hiff
    cases b with
    | nil =>
      exfalso
      have hw : covers (ra :: ta) ra.min := ⟨ra, by simp, le_refl _, hva ra (by simp)⟩
      rcases (hiff ra.min).mp hw with ⟨x, hx, _⟩
      cases hx
    | cons rb tb =>
      have hsa := sortedMins_of_chain hca hva
      have hsb := sortedMins_of_chain hcb hvb
      have hvra := hva ra (by simp)
      have hvrb := hvb rb (by simp)
      have hmin : ra.min = rb.min := by
        have h1 : covers (rb :: tb) ra.min :=
          (hiff ra.min).mp ⟨ra, by simp, le_refl _, hvra⟩
        have h2 : covers (ra :: ta) rb.min :=
          (hiff rb.min).mpr ⟨rb, by simp, le_refl _, hvrb⟩
        have h3 := covers_lb hsb h1
        have h4 := covers_lb hsa h2
        omega
      have hmax : ra.max = rb.max := by
        rcases Nat.lt_trichotomy ra.max rb.max with h | h | h
        · exfalso
          have hw : covers (rb :: tb) (ra.max + 1) :=
            covers_cons.mpr (Or.inl ⟨by omega, by omega⟩)
          rcases covers_cons.mp ((hiff (ra.max + 1)).mpr hw) with ⟨q1, q2⟩ | hh
          · omega
          · rcases hh with ⟨x, hx, q1, q2⟩
            have := chain_head_lt hca hva x hx
            omega
        · exact h
        · exfalso
          have hw : covers (ra :: ta) (rb.max + 1) :=
            covers_cons.mpr (Or.inl ⟨by omega, by omega⟩)
          rcases covers_cons.mp ((hiff (rb.max + 1)).mp hw) with ⟨q1, q2⟩ | hh
          · omega
          · rcases hh with ⟨x, hx, q1, q2⟩
            have := chain_head_lt hcb hvb x hx
            omega
      have hhead : ra = rb := by
        cases ra
        cases rb
        simp only at hmin hmax
        simp [hmin, hmax]
      subst hhead
      have htail : ta = tb := by
        refine ih tb (RChain_tail hca) (RValid_tail hva) (RChain_tail hcb)
          (RValid_tail hvb) ?_
        intro ch
        constructor
        · intro h
          have hgt := covers_tail_lb hca hva h
          rcases covers_cons.mp ((hiff ch).mp (covers_cons.mpr (Or.inr h))) with ⟨q1, q2⟩ | hh
          · omega
          · exact hh
        · intro h
          have hgt := covers_tail_lb hcb hvb h
          rcases covers_cons.mp ((hiff ch).mpr (covers_cons.mpr (Or.inr h))) with ⟨q1, q2⟩ | hh
          · omega
          · exact hh
      rw [htail]

/-! ## `equals` characterization -/

theorem eqPairsLoop_iff : ∀ (a b : List CharRange), a.length = b.length →
    (eqPairsLoop a b = true ↔ a = b) := by
  intro a
  induction a with
  | nil =>
    intro b hlen
    cases b with
    | nil => simp [eqPairsLoop]
    | cons rb tb => simp at hlen
  | cons ra ta ih =>
    intro b hlen
    cases b with
    | nil => simp at hlen
    | cons rb tb =>
      rw [eqPairsLoop]
      split
      · rename_i hne
        refine iff_of_false (by simp) ?_
        intro hh
        rw [List.cons_eq_cons] at hh
        rcases hh with ⟨h1, _⟩
        rcases hne with hne | hne <;> exact hne (by rw [h1])
      · rename_i hne
        have heq : ra = rb := by
          cases ra
          cases rb
          simp only [not_or, Decidable.not_not] at hne
          simp [hne.1, hne.2]
        rw [ih tb (by simpa using hlen), heq, List.cons_eq_cons]
        simp
/-! ## Normal form carried through `Except` results -/

/-- "Every `CharSet` returned by the operation is in normal form": an
erroring operation returns none. -/
def NFExcept : Except CSErr CharSet → Prop
  | Except.ok u => u.NF
  | Except.error _ => True

/-- Executable mirror of `RChain`, for concrete witnesses. -/
def chainB : List CharRange → Bool
  | [] => true
  | [_] => true
  | a :: b :: t => decide (a.max + 1 < b.min) && chainB (b :: t)

theorem chainB_iff : ∀ (rs : List CharRange), chainB rs = true ↔ RChain rs := by
  intro rs
  match rs with
  | [] => simp [chainB, RChain]
  | [r] =>
    simp only [chainB, RChain]
    simp [List.chain'_singleton]
  | a :: b :: t =>
    rw [chainB, RChain, List.chain'_cons]
    rw [Bool.and_eq_true, decide_eq_true_eq]
    rw [chainB_iff (b :: t)]
    exact Iff.rfl

/-! ## Claim C10: the second `checkRange` throw is unreachable -/

/-- C10: for every input, `checkRange` either fails at the first throw
site or returns the range unchanged; the `max > maximum` rethrow
(char-set.ts:137) is dead code because the first condition subsumes it. -/
theorem claim_checkRange_second_branch_unreachable (maximum : Int) (r : Int × Int) :
    CharSet.checkRange maximum r = Except.error CSErr.rangeMinOutOfBounds ∨
      CharSet.checkRange maximum r = Except.ok r := by
  rw [CharSet.checkRange]
  split
  · exact Or.inl rfl
  · rename_i h1
    rw [if_neg (by omega)]
    exact Or.inr rfl

/-! ## Claim C9: operations preserve the receiver maximum -/

/-- C9: `negate`, `union`, `intersect` and `without` all return a set whose
`maximum` is the receiver's `maximum` (for a compatible argument). -/
theorem claim_ops_preserve_maximum (s x : CharSet) (h : x.maximum = s.maximum) :
    s.negate.maximum = s.maximum ∧
      (CharSet.union s x).map CharSet.maximum = Except.ok s.maximum ∧
      (CharSet.intersect s x).map CharSet.maximum = Except.ok s.maximum ∧
      (CharSet.without s x).map CharSet.maximum = Except.ok s.maximum := by
  refine ⟨rfl, ?_, ?_, ?_⟩
  · rw [CharSet.union, if_neg (by simp [h])]
    split
    · rfl
    · rfl
  · simp only [CharSet.intersect]
    rw [if_neg (by simp [h])]
    split
    · rfl
    · rfl
  · simp only [CharSet.without]
    rw [if_neg (by simp [h])]
    split
    · rfl
    · rfl

theorem claim_ops_preserve_maximum_witness :
    (CharSet.mk 5 [CharRange.mk 1 2]).negate.maximum = 5 ∧
      (CharSet.union (CharSet.mk 5 [CharRange.mk 1 2]) (CharSet.mk 5 [CharRange.mk 4 4])).map
        CharSet.maximum = Except.ok 5 ∧
      (CharSet.intersect (CharSet.mk 5 [CharRange.mk 1 2]) (CharSet.mk 5 [CharRange.mk 4 4])).map
        CharSet.maximum = Except.ok 5 ∧
      (CharSet.without (CharSet.mk 5 [CharRange.mk 1 2]) (CharSet.mk 5 [CharRange.mk 4 4])).map
        CharSet.maximum = Except.ok 5 :=
  claim_ops_preserve_maximum (CharSet.mk 5 [CharRange.mk 1 2]) (CharSet.mk 5 [CharRange.mk 4 4]) rfl

/-! ## Claim C3 (corrected): which operations check compatibility -/

/-- Counterexample to C3 as stated: on two sets with different `maximum`,
`equals` does not fail with `DomainMismatch` — it returns the ordinary
value `false` (char-set.ts:144), `compare` returns the difference of the
maxima (char-set.ts:157), and `isSupersetOf` runs its sweep without any
compatibility check (char-set.ts:246-280) and can even return `true`. -/
theorem claim_domain_mismatch_counterexample :
    CharSet.equals (CharSet.empty 5) (CharSet.empty 7) = false ∧
      CharSet.compare (CharSet.empty 5) (CharSet.empty 7) = -2 ∧
      CharSet.isSupersetOf (CharSet.all 7) (CharSet.empty 5) = true := by
  refine ⟨by decide, by decide, ?_⟩
  rw [CharSet.isSupersetOf]
  rw [isSupersetOfRanges.eq_def]
  rfl

/-- C3 (amended): only `union`, `intersect` and `without` fail with
`DomainMismatch` on mismatched maxima; `equals` returns `false` and
`compare` returns the (nonzero) difference of the maxima instead of
failing; and with equal maxima the three `maximum`-preserving operations
never fail. -/
theorem claim_domain_mismatch_amended (a b : CharSet) :
    (a.maximum ≠ b.maximum →
      CharSet.union a b = Except.error CSErr.domainMismatch ∧
        CharSet.intersect a b = Except.error CSErr.domainMismatch ∧
        CharSet.without a b = Except.error CSErr.domainMismatch ∧
        CharSet.equals a b = false ∧
        CharSet.compare a b = (a.maximum : Int) - (b.maximum : Int) ∧
        (a.maximum : Int) - (b.maximum : Int) ≠ 0) ∧
      (a.maximum = b.maximum →
        (CharSet.union a b).toOption.isSome = true ∧
          (CharSet.intersect a b).toOption.isSome = true ∧
          (CharSet.without a b).toOption.isSome = true) := by
  constructor
  · intro h
    refine ⟨?_, ?_, ?_, ?_, ?_, by omega⟩
    · rw [CharSet.union, if_pos (Ne.symm h)]
    · simp only [CharSet.intersect]
      rw [if_pos (Ne.symm h)]
    · simp only [CharSet.without]
      rw [if_pos (Ne.symm h)]
    · rw [CharSet.equals, if_pos h]
    · rw [CharSet.compare, if_pos h]
  · intro h
    refine ⟨?_, ?_, ?_⟩
    · rw [CharSet.union, if_neg (by simp [h])]
      split
      · rfl
      · rfl
    · simp only [CharSet.intersect]
      rw [if_neg (by simp [h])]
      split
      · rfl
      · rfl
    · simp only [CharSet.without]
      rw [if_neg (by simp [h])]
      split
      · rfl
      · rfl

theorem claim_domain_mismatch_amended_witness :
    (CharSet.union (CharSet.empty 5) (CharSet.empty 7) =
        Except.error CSErr.domainMismatch ∧
      CharSet.intersect (CharSet.empty 5) (CharSet.empty 7) =
        Except.error CSErr.domainMismatch ∧
      CharSet.without (CharSet.empty 5) (CharSet.empty 7) =
        Except.error CSErr.domainMismatch ∧
      CharSet.equals (CharSet.empty 5) (CharSet.empty 7) = false ∧
      CharSet.compare (CharSet.empty 5) (CharSet.empty 7) = ((5 : Nat) : Int) - ((7 : Nat) : Int) ∧
      ((5 : Nat) : Int) - ((7 : Nat) : Int) ≠ 0) ∧
      (CharSet.union (CharSet.empty 3) (CharSet.empty 3)).toOption.isSome = true ∧
      (CharSet.intersect (CharSet.empty 3) (CharSet.empty 3)).toOption.isSome = true ∧
      (CharSet.without (CharSet.empty 3) (CharSet.empty 3)).toOption.isSome = true :=
  ⟨(claim_domain_mismatch_amended (CharSet.empty 5) (CharSet.empty 7)).1 (by decide),
    (claim_domain_mismatch_amended (CharSet.empty 3) (CharSet.empty 3)).2 rfl⟩

/-! ## Claim C2: all operations keep the normal form -/

/-- C2: `negate`, `union`, `intersect` and `without` applied to normal-form
(compatible) inputs return sets whose ranges are sorted by ascending `min`,
pairwise disjoint and non-adjacent (`r.max + 1 < r'.min` for consecutive
ranges), with `min ≤ max ≤ maximum` for every range. -/
theorem claim_charset_ops_normal_form (a b : CharSet) (ha : a.NF) (hb : b.NF)
    (hmax : b.maximum = a.maximum) :
    a.negate.NF ∧ NFExcept (CharSet.union a b) ∧ NFExcept (CharSet.intersect a b) ∧
      NFExcept (CharSet.without a b) := by
  obtain ⟨hsa, hca, hva, hba⟩ := NF_parts ha
  obtain ⟨hsb, hcb, hvb, hbb⟩ := NF_parts hb
  rw [hmax] at hbb
  refine ⟨?_, ?_, ?_, ?_⟩
  · rcases negate_nf a.ranges hca hva hba with ⟨h1, h2, h3⟩
    exact ⟨sortedMins_of_chain h1 h2, h1, h2, h3⟩
  · rw [CharSet.union, if_neg (by simp [hmax])]
    split
    · exact ha
    · rcases unionRanges_spec (m := a.maximum) hsa hva hba hsb hvb hbb with ⟨⟨h1, h2, h3, h4⟩, _⟩
      exact ⟨h1, h2, h3, h4⟩
  · simp only [CharSet.intersect]
    rw [if_neg (by simp [hmax])]
    split
    · exact ⟨List.Pairwise.nil, List.chain'_nil, fun r h => absurd h (List.not_mem_nil r),
        fun r h => absurd h (List.not_mem_nil r)⟩
    · rcases intersect_nf (m := a.maximum) a.ranges b.ranges hca hva hba hcb hvb with ⟨h1, h2, h3⟩
      exact ⟨sortedMins_of_chain h1 h2, h1, h2, h3⟩
  · simp only [CharSet.without]
    rw [if_neg (by simp [hmax])]
    split
    · exact ⟨List.Pairwise.nil, List.chain'_nil, fun r h => absurd h (List.not_mem_nil r),
        fun r h => absurd h (List.not_mem_nil r)⟩
    · rcases without_nf (m := a.maximum) a.ranges b.ranges hca hva hba hvb with ⟨h1, h2, h3⟩
      exact ⟨sortedMins_of_chain h1 h2, h1, h2, h3⟩

theorem claim_charset_ops_normal_form_witness :
    (CharSet.mk 9 [CharRange.mk 0 1, CharRange.mk 4 6]).negate.NF ∧
      NFExcept (CharSet.union (CharSet.mk 9 [CharRange.mk 0 1, CharRange.mk 4 6])
        (CharSet.mk 9 [CharRange.mk 2 4])) ∧
      NFExcept (CharSet.intersect (CharSet.mk 9 [CharRange.mk 0 1, CharRange.mk 4 6])
        (CharSet.mk 9 [CharRange.mk 2 4])) ∧
      NFExcept (CharSet.without (CharSet.mk 9 [CharRange.mk 0 1, CharRange.mk 4 6])
        (CharSet.mk 9 [CharRange.mk 2 4])) := by
  have hc1 : RChain [CharRange.mk 0 1, CharRange.mk 4 6] := (chainB_iff _).mp (by decide)
  have hv1 : RValid [CharRange.mk 0 1, CharRange.mk 4 6] := by
    rw [RValid]
    decide
  have hc2 : RChain [CharRange.mk 2 4] := (chainB_iff _).mp (by decide)
  have hv2 : RValid [CharRange.mk 2 4] := by
    rw [RValid]
    decide
  exact claim_charset_ops_normal_form _ _
    ⟨sortedMins_of_chain hc1 hv1, hc1, hv1, by decide⟩
    ⟨sortedMins_of_chain hc2 hv2, hc2, hv2, by decide⟩ rfl

/-! ## Claim C4: the three containment formulations agree -/

theorem equals_iff (u v : CharSet) :
    CharSet.equals u v = true ↔ (u.maximum = v.maximum ∧ u.ranges = v.ranges) := by
  rw [CharSet.equals]
  split
  · rename_i h
    exact iff_of_false (by simp) (fun hh => h hh.1)
  · split
    · rename_i h h2
      exact iff_of_false (by simp) (fun hh => h2 (by rw [hh.2]))
    · rename_i h h2
      rw [eqPairsLoop_iff _ _ (by omega)]
      constructor
      · intro hh
        exact ⟨by omega, hh⟩
      · intro hh
        exact hh.2

/-- C4: for normal-form sets of equal maximum, `a.isSupersetOf(b)`,
`b.without(a).isEmpty` and `a.union(b).equals(a)` are equivalent. -/
theorem claim_superset_equivalences (a b : CharSet) (ha : a.NF) (hb : b.NF)
    (hmax : a.maximum = b.maximum) :
    (CharSet.isSupersetOf a b = true ↔
      (CharSet.without b a).map CharSet.isEmpty = Except.ok true) ∧
      ((CharSet.without b a).map CharSet.isEmpty = Except.ok true ↔
        (CharSet.union a b).map (fun u => CharSet.equals u a) = Except.ok true) := by
  obtain ⟨hsa, hca, hva, hba⟩ := NF_parts ha
  obtain ⟨hsb, hcb, hvb, hbb⟩ := NF_parts hb
  have hsupIff := isSup_correct a.ranges b.ranges hca hva hcb hvb
  have hbb2 : RBnd a.maximum b.ranges := by
    rw [hmax]
    exact hbb
  have hwo : (CharSet.without b a).map CharSet.isEmpty = Except.ok true ↔
      withoutRanges b.ranges a.ranges = [] := by
    simp only [CharSet.without]
    rw [if_neg (by simp [hmax])]
    split
    · rename_i hlen
      simp only [Except.map]
      refine iff_of_true rfl ?_
      exact List.length_eq_zero.mp (by simpa using hlen)
    · rename_i hlen
      simp only [Except.map, CharSet.isEmpty]
      constructor
      · intro hh
        exact absurd (Except.ok.inj hh) hlen
      · intro hh
        exact absurd (by rw [hh]; rfl) hlen
  have key1 : withoutRanges b.ranges a.ranges = [] ↔
      ∀ ch, covers b.ranges ch → covers a.ranges ch := by
    constructor
    · intro hw ch hcb2
      by_contra hna
      have hcw : covers (withoutRanges b.ranges a.ranges) ch :=
        (without_covers b.ranges a.ranges hcb hvb hca hva ch).mpr ⟨hcb2, hna⟩
      rw [hw, covers_nil] at hcw
      exact hcw
    · intro h
      cases hweq : withoutRanges b.ranges a.ranges with
      | nil => rfl
      | cons hd tl =>
        exfalso
        have hnf := without_nf (m := b.maximum) b.ranges a.ranges hcb hvb hbb hva
        have hval : hd.min ≤ hd.max := hnf.2.1 hd (by rw [hweq]; simp)
        have hmem : covers (withoutRanges b.ranges a.ranges) hd.min := by
          rw [hweq]
          exact ⟨hd, by simp, le_refl _, hval⟩
        have hdec := (without_covers b.ranges a.ranges hcb hvb hca hva hd.min).mp hmem
        exact hdec.2 (h hd.min hdec.1)
  have hus := unionRanges_spec (m := a.maximum) hsa hva hba hsb hvb hbb2
  have key2 : unionRanges a.ranges b.ranges = a.ranges ↔
      ∀ ch, covers b.ranges ch → covers a.ranges ch := by
    constructor
    · intro hu ch hcb2
      have hcv := hus.2 ch
      rw [hu] at hcv
      exact hcv.mpr (Or.inr hcb2)
    · intro h
      refine covers_canonical _ _ hus.1.2.1 hus.1.2.2.1 hca hva ?_
      intro ch
      rw [hus.2 ch]
      constructor
      · rintro (hh | hh)
        · exact hh
        · exact h ch hh
      · exact Or.inl
  have hunion : (CharSet.union a b).map (fun u => CharSet.equals u a) = Except.ok true ↔
      (b.ranges = [] ∨ unionRanges a.ranges b.ranges = a.ranges) := by
    rw [CharSet.union, if_neg (by simp [hmax])]
    split
    · rename_i hbe
      simp only [Except.map]
      have hself : CharSet.equals a a = true := (equals_iff a a).mpr ⟨rfl, rfl⟩
      refine iff_of_true (by rw [hself]) (Or.inl ?_)
      exact List.length_eq_zero.mp (by simpa using hbe)
    · rename_i hbe
      simp only [Except.map]
      have hbne : ¬(b.ranges = []) := fun hh => hbe (by rw [hh]; rfl)
      constructor
      · intro hh
        exact Or.inr ((equals_iff _ a).mp (Except.ok.inj hh)).2
      · rintro (hh | hh)
        · exact absurd hh hbne
        · have : CharSet.equals (CharSet.mk a.maximum (unionRanges a.ranges b.ranges)) a =
              true := (equals_iff _ a).mpr ⟨rfl, hh⟩
          rw [this]
  refine ⟨?_, ?_⟩
  · rw [CharSet.isSupersetOf, hsupIff, hwo]
    exact key1.symm
  · rw [hwo, hunion, key1]
    constructor
    · intro h
      by_cases hbe : b.ranges = []
      · exact Or.inl hbe
      · exact Or.inr (key2.mpr h)
    · rintro (hh | hh)
      · intro ch hcb2
        rw [hh, covers_nil] at hcb2
        exact hcb2.elim
      · exact key2.mp hh

theorem claim_superset_equivalences_witness :
    (CharSet.isSupersetOf (CharSet.mk 5 [CharRange.mk 0 3]) (CharSet.mk 5 [CharRange.mk 1 2]) =
        true ↔
      (CharSet.without (CharSet.mk 5 [CharRange.mk 1 2])
        (CharSet.mk 5 [CharRange.mk 0 3])).map CharSet.isEmpty = Except.ok true) ∧
      ((CharSet.without (CharSet.mk 5 [CharRange.mk 1 2])
          (CharSet.mk 5 [CharRange.mk 0 3])).map CharSet.isEmpty = Except.ok true ↔
        (CharSet.union (CharSet.mk 5 [CharRange.mk 0 3])
          (CharSet.mk 5 [CharRange.mk 1 2])).map
            (fun u => CharSet.equals u (CharSet.mk 5 [CharRange.mk 0 3])) = Except.ok true) := by
  have hc1 : RChain [CharRange.mk 0 3] := (chainB_iff _).mp (by decide)
  have hv1 : RValid [CharRange.mk 0 3] := by
    rw [RValid]
    decide
  have hc2 : RChain [CharRange.mk 1 2] := (chainB_iff _).mp (by decide)
  have hv2 : RValid [CharRange.mk 1 2] := by
    rw [RValid]
    decide
  exact claim_superset_equivalences _ _
    ⟨sortedMins_of_chain hc1 hv1, hc1, hv1, by decide⟩
    ⟨sortedMins_of_chain hc2 hv2, hc2, hv2, by decide⟩ rfl

/-! ## AST model (to-regex.ts / ast.ts)

The AST node types (`Simple<Element | Concatenation | Expression>`) come
from `ast.ts`, which is not under `src/`.

Modelled from the spec: §3.2 gives the shapes — `CharacterClass
{characters}`, `Concatenation {elements}`, `Alternation {alternatives}`,
`Quantifier {alternatives, min, max ∈ ℕ ∪ {∞}}`, `Assertion {kind,
negate, alternatives}`, `Expression {alternatives}`. A `Concatenation` is
represented by its element list, a quantifier maximum by `Option Nat`
(`none` = `Infinity`), and the assertion `kind` ("ahead"/"behind") by a
`Bool`. -/
inductive Element where
  | characterClass (characters : CharSet)
  | alternation (alternatives : List (List Element))
  | quantifier (alternatives : List (List Element)) (min : Nat) (max : Option Nat)
  | assertion (kind : Bool) (negate : Bool) (alternatives : List (List Element))

/-- Modelled from the spec (§3.2): the root `Expression` node. -/
structure Expression where
  alternatives : List (List Element)

/-! ### Node counts -/

mutual

/-- Number of AST nodes of an element (each node counts one). -/
def elementSize : Element → Nat
  | Element.characterClass _ => 1
  | Element.alternation alts => 1 + altsSize alts
  | Element.quantifier alts _ _ => 1 + altsSize alts
  | Element.assertion _ _ alts => 1 + altsSize alts

/-- Number of AST nodes of a list of elements. -/
def elementsSize : List Element → Nat
  | [] => 0
  | e :: es => elementSize e + elementsSize es

/-- Number of AST nodes of an alternatives list; each alternative is a
`Concatenation` node of its own. -/
def altsSize : List (List Element) → Nat
  | [] => 0
  | c :: cs => (1 + elementsSize c) + altsSize cs

end

/-- Total number of AST nodes of an expression. -/
def exprSize (e : Expression) : Nat :=
  1 + altsSize e.alternatives

theorem elementsSize_append (a b : List Element) :
    elementsSize (a ++ b) = elementsSize a + elementsSize b := by
  induction a with
  | nil => simp [elementsSize]
  | cons e es ih =>
    rw [List.cons_append, elementsSize, elementsSize, ih]
    omega

theorem altsSize_append (a b : List (List Element)) :
    altsSize (a ++ b) = altsSize a + altsSize b := by
  induction a with
  | nil => simp [altsSize]
  | cons c cs ih =>
    rw [List.cons_append, altsSize, altsSize, ih]
    omega

theorem elementSize_pos (e : Element) : 1 ≤ elementSize e := by
  cases e <;> simp only [elementSize] <;> omega

/-! ### Structural equality (to-regex.ts:625-672) -/

mutual

/-- `structurallyEqual` (to-regex.ts:625). -/
def structurallyEqual : Element → Element → Bool
  | Element.alternation a1, Element.alternation a2 => structurallyEqualAlternatives a1 a2
  | Element.assertion k1 n1 a1, Element.assertion k2 n2 a2 =>
    if k1 ≠ k2 ∨ n1 ≠ n2 then false else structurallyEqualAlternatives a1 a2
  | Element.characterClass c1, Element.characterClass c2 => CharSet.equals c1 c2
  | Element.quantifier a1 mn1 mx1, Element.quantifier a2 mn2 mx2 =>
    if mn1 ≠ mn2 ∨ mx1 ≠ mx2 then false else structurallyEqualAlternatives a1 a2
  | _, _ => false

/-- `structurallyEqualAlternatives` (to-regex.ts:654): length check plus
pairwise comparison, expressed recursively. -/
def structurallyEqualAlternatives : List (List Element) → List (List Element) → Bool
  | [], [] => true
  | [], _ :: _ => false
  | _ :: _, [] => false
  | c1 :: t1, c2 :: t2 =>
    structurallyEqualConcatenation c1 c2 && structurallyEqualAlternatives t1 t2

/-- `structurallyEqualConcatenation` (to-regex.ts:665). -/
def structurallyEqualConcatenation : List Element → List Element → Bool
  | [], [] => true
  | [], _ :: _ => false
  | _ :: _, [] => false
  | e1 :: t1, e2 :: t2 => structurallyEqual e1 e2 && structurallyEqualConcatenation t1 t2

end

/-! ### `canMatchEmptyString` (to-regex.ts:707-726) -/

mutual

/-- `canMatchEmptyString` on a single element. -/
def canMatchEmptyString : Element → Bool
  | Element.assertion _ _ _ => false
  | Element.characterClass _ => false
  | Element.alternation alts => canMatchEmptyStringAlts alts
  | Element.quantifier alts mn _ => (mn == 0) || canMatchEmptyStringAlts alts

/-- `canMatchEmptyString` on a `Concatenation` (every element). -/
def canMatchEmptyStringConcat : List Element → Bool
  | [] => true
  | e :: es => canMatchEmptyString e && canMatchEmptyStringConcat es

/-- `canMatchEmptyString` over alternatives (some alternative). -/
def canMatchEmptyStringAlts : List (List Element) → Bool
  | [] => false
  | c :: cs => canMatchEmptyStringConcat c || canMatchEmptyStringAlts cs

end

/-- `equalToQuantifiedElement` (to-regex.ts:728-752), for an `Element`
argument (the `Concatenation` arm of the source is only reachable through
its own recursion, never from the callers in this module). Only the
quantifier alternatives are inspected, matching the source. -/
def equalToQuantifiedElement (qalts : List (List Element)) : Element → Bool
  | Element.alternation alts => structurallyEqualAlternatives qalts alts
  | e =>
    match qalts with
    | [[single]] => structurallyEqual single e
    | _ => false

/-- `getSingleElement(node, "Quantifier")` (to-regex.ts:691-705):
a single alternative holding a single quantifier element. -/
def getSingleQuantifier : List (List Element) → Option (List (List Element) × Nat × Option Nat)
  | [[Element.quantifier alts mn mx]] => some (alts, mn, mx)
  | _ => none

/-- `safeMultiply` (to-regex.ts:680-686); `none` is `Infinity`. -/
def safeMultiply : Option Nat → Option Nat → Option Nat
  | some 0, _ => some 0
  | _, some 0 => some 0
  | some x, some y => some (x * y)
  | _, _ => none

/-- JS `+ 1` on a quantifier bound (`Infinity + 1 = Infinity`). -/
def optSucc : Option Nat → Option Nat
  | some x => some (x + 1)
  | none => none

/-- JS `+` on quantifier bounds (`Infinity + n = Infinity`). -/
def optAdd : Option Nat → Option Nat → Option Nat
  | some x, some y => some (x + y)
  | _, _ => none

/-! ## The stable sort of `Array.prototype.sort`

Modelled from the ECMAScript specification: `Array.prototype.sort` with a
comparator is a stable sort; modelled as stable insertion from the left
(each element is placed after every earlier element that compares `≤ 0`
against it). -/

def sInsert {α : Type} (cmp : α → α → Int) : List α → α → List α
  | [], x => [x]
  | y :: ys, x => if cmp y x ≤ 0 then y :: sInsert cmp ys x else x :: y :: ys

def jsSort {α : Type} (cmp : α → α → Int) (l : List α) : List α :=
  l.foldl (sInsert cmp) []

theorem sInsert_mem {α : Type} (cmp : α → α → Int) :
    ∀ (l : List α) (x z : α), z ∈ sInsert cmp l x → z = x ∨ z ∈ l := by
  intro l
  induction l with
  | nil =>
    intro x z hz
    rw [sInsert] at hz
    rcases List.mem_cons.mp hz with rfl | hz2
    · exact Or.inl rfl
    · cases hz2
  | cons y ys ih =>
    intro x z hz
    rw [sInsert] at hz
    split at hz
    · rcases List.mem_cons.mp hz with rfl | hz2
      · exact Or.inr (by simp)
      · rcases ih x z hz2 with h | h
        · exact Or.inl h
        · exact Or.inr (List.mem_cons_of_mem _ h)
    · rcases List.mem_cons.mp hz with rfl | hz2
      · exact Or.inl rfl
      · exact Or.inr hz2

theorem jsSort_mem {α : Type} (cmp : α → α → Int) (l : List α) (z : α) :
    z ∈ jsSort cmp l → z ∈ l := by
  rw [jsSort]
  suffices h : ∀ (l2 : List α) (acc : List α), z ∈ l2.foldl (sInsert cmp) acc →
      z ∈ acc ∨ z ∈ l2 by
    intro hz
    rcases h l [] hz with h2 | h2
    · cases h2
    · exact h2
  intro l2
  induction l2 with
  | nil =>
    intro acc hz
    exact Or.inl hz
  | cons x xs ih =>
    intro acc hz
    rw [List.foldl_cons] at hz
    rcases ih (sInsert cmp acc x) hz with h2 | h2
    · rcases sInsert_mem cmp acc x z h2 with h3 | h3
      · exact Or.inr (by simp [h3])
      · exact Or.inl h3
    · exact Or.inr (List.mem_cons_of_mem _ h2)

/-! ## Simplifier rewrites (to-regex.ts:754-947) -/

/-- `inlineAlternatives` (to-regex.ts:754-770): an alternative that is a
single `Alternation` element is spliced into the parent alternatives; the
splice point is reprocessed (`i--`). -/
def inlineAlternatives : List (List Element) → List (List Element) × Bool
  | [] => ([], false)
  | c :: rest =>
    match c with
    | [Element.alternation alts] => ((inlineAlternatives (alts ++ rest)).1, true)
    | _ =>
      let r := inlineAlternatives rest
      (c :: r.1, r.2)
termination_by l => altsSize l
decreasing_by
  · simp only [altsSize, altsSize_append, elementsSize, elementSize]
    omega
  · simp only [altsSize]
    omega

/-- The quantifier-lowering loop of `optimizeEmptyString`
(to-regex.ts:786-800): lower the first alternative that is a single
quantifier with `min === 1`. -/
def lowerFirstMinOneQuantifier : List (List Element) → Option (List (List Element))
  | [] => none
  | c :: rest =>
    match c with
    | [Element.quantifier alts 1 mx] => some ([Element.quantifier alts 0 mx] :: rest)
    | _ => (lowerFirstMinOneQuantifier rest).map (fun r => c :: r)

/-- `optimizeEmptyString` (to-regex.ts:771-822). -/
def optimizeEmptyString (alternatives : List (List Element)) :
    List (List Element) × Bool :=
  if 2 ≤ alternatives.length ∧ alternatives.any (fun c => c.length == 0) then
    let filtered := alternatives.filter (fun c => 0 < c.length)
    if filtered.length == 0 then ([[]], true)
    else if filtered.any canMatchEmptyStringConcat then (filtered, true)
    else
      match lowerFirstMinOneQuantifier filtered with
      | some changed => (changed, true)
      | none => ([[Element.quantifier filtered 0 (some 1)]], true)
  else (alternatives, false)

/-- The prefix-length loop of `factorOutCommonPreAndSuffix`
(to-regex.ts:832-839), walking all alternatives in lockstep with the
shortest one. The `[]` arm of an alternative is unreachable because every
alternative is at least as long as the shortest. -/
def commonPreLen (cs : List (List Element)) : List Element → Nat
  | [] => 0
  | e :: rest =>
    if cs.all (fun c =>
        match c with
        | [] => false
        | x :: _ => structurallyEqual e x) then
      1 + commonPreLen (cs.map List.tail) rest
    else 0

/-- `factorOutCommonPreAndSuffix` (to-regex.ts:823-880). -/
def factorOutCommonPreAndSuffix (alternatives : List (List Element)) :
    List (List Element) × Bool :=
  if 2 ≤ alternatives.length then
    match jsSort (fun a b => ((a.length : Int) - b.length)) alternatives with
    | [] => (alternatives, false)
    | shortest :: _ =>
      let preLen := commonPreLen alternatives shortest
      let sufLen := commonPreLen (alternatives.map List.reverse)
        (shortest.reverse.take (shortest.length - preLen))
      if 0 < preLen ∨ 0 < sufLen then
        let pre := shortest.take preLen
        let suf := shortest.drop (shortest.length - sufLen)
        let stripped := alternatives.map (fun c => (c.take (c.length - sufLen)).drop preLen)
        ([pre ++ (Element.alternation stripped :: suf)], true)
      else (alternatives, false)
  else (alternatives, false)

/-- `inlineConcat` (to-regex.ts:881-908): `x{0,1}`/`x{1,1}` inlining
followed by single-alternative alternation splicing, with the splice
point reprocessed (`i--`). -/
def inlineConcat : List Element → List Element × Bool
  | [] => ([], false)
  | e :: rest =>
    match e with
    | Element.quantifier alts mn (some 1) =>
      if mn == 1 || (mn == 0 && canMatchEmptyStringAlts alts) then
        match alts with
        | [single] => ((inlineConcat (single ++ rest)).1, true)
        | _ => (Element.alternation alts :: (inlineConcat rest).1, true)
      else
        let r := inlineConcat rest
        (e :: r.1, r.2)
    | Element.alternation [single] => ((inlineConcat (single ++ rest)).1, true)
    | _ =>
      let r := inlineConcat rest
      (e :: r.1, r.2)
termination_by l => elementsSize l
decreasing_by
  all_goals simp only [elementsSize, elementsSize_append, elementSize, altsSize]
  all_goals try omega
  all_goals rename_i x
  all_goals (have h := elementSize_pos x; omega)

/-- One left-to-right pass of `filterMut` in
`letQuantifiersConsumeNeighbors` (to-regex.ts:912-925).

Modelled from the spec for `filterMut` (util.ts is not under `src/`):
the callback receives each item together with the previous retained
(possibly mutated) item, and a `false` result drops the item. -/
def consumeAux : Element → List Element → List Element × Bool
  | prev, [] => ([prev], false)
  | prev, x :: rest =>
    match prev with
    | Element.quantifier qalts qmin qmax =>
      if equalToQuantifiedElement qalts x then
        ((consumeAux (Element.quantifier qalts (qmin + 1) (optSucc qmax)) rest).1, true)
      else
        let r := consumeAux x rest
        (prev :: r.1, r.2)
    | _ =>
      let r := consumeAux x rest
      (prev :: r.1, r.2)

def consumeLTR : List Element → List Element × Bool
  | [] => ([], false)
  | x :: rest => consumeAux x rest

/-- The adjacent-quantifier merge pass of `letQuantifiersConsumeNeighbors`
(to-regex.ts:932-944), same `filterMut` discipline. -/
def mergeAdjAux : Element → List Element → List Element × Bool
  | prev, [] => ([prev], false)
  | prev, x :: rest =>
    match prev, x with
    | Element.quantifier qalts qmin qmax, Element.quantifier xalts xmin xmax =>
      if structurallyEqualAlternatives qalts xalts then
        ((mergeAdjAux (Element.quantifier qalts (qmin + xmin) (optAdd qmax xmax)) rest).1, true)
      else
        let r := mergeAdjAux x rest
        (prev :: r.1, r.2)
    | _, _ =>
      let r := mergeAdjAux x rest
      (prev :: r.1, r.2)

/-- `letQuantifiersConsumeNeighbors` (to-regex.ts:909-947): a forward
pass, a backward pass (reverse, scan, reverse), then the merge pass. -/
def letQuantifiersConsumeNeighbors (elements : List Element) :
    List Element × Bool :=
  let p1 := consumeLTR elements
  let p2 := consumeLTR p1.1.reverse
  let p3 := p2.1.reverse
  let p4 :=
    match p3 with
    | [] => (([] : List Element), false)
    | x :: rest => mergeAdjAux x rest
  (p4.1, p1.2 || (p2.2 || p4.2))

/-- The nested-quantifier fusion of `onQuantifierLeave`
(to-regex.ts:968-981). -/
def quantifierFusion (alts : List (List Element)) (mn : Nat) (mx : Option Nat) :
    (List (List Element) × Nat × Option Nat) × Bool :=
  if mn == 0 || mn == 1 then
    match getSingleQuantifier alts with
    | some (ialts, imn, imx) =>
      if imn == 0 || imn == 1 then
        ((ialts, mn * imn, safeMultiply mx imx), true)
      else ((alts, mn, mx), false)
    | none => ((alts, mn, mx), false)
  else ((alts, mn, mx), false)

/-- `onNodeWithAlternatives` (to-regex.ts:952-956). -/
def onNodeWithAlternatives (alts : List (List Element)) :
    List (List Element) × Bool :=
  let r1 := inlineAlternatives alts
  let r2 := optimizeEmptyString r1.1
  let r3 := factorOutCommonPreAndSuffix r2.1
  (r3.1, r1.2 || (r2.2 || r3.2))

/-! ## `optimize` (to-regex.ts:949-985)

`visitAst` comes from `ast.ts`, which is not under `src/`. Modelled from
the spec (§4.6): the traversal is post-order, so every node's rewrite
runs after its children's; this is the bottom-up rebuild below. The
`onConcatenationLeave` handler (`inlineConcat` then
`letQuantifiersConsumeNeighbors`) is inlined at each concatenation. -/

mutual

def optElement : Element → Element × Bool
  | Element.characterClass cs => (Element.characterClass cs, false)
  | Element.alternation alts =>
    let c := optAlts alts
    let h := onNodeWithAlternatives c.1
    (Element.alternation h.1, c.2 || h.2)
  | Element.assertion k n alts =>
    let c := optAlts alts
    let h := onNodeWithAlternatives c.1
    (Element.assertion k n h.1, c.2 || h.2)
  | Element.quantifier alts mn mx =>
    let c := optAlts alts
    let h := onNodeWithAlternatives c.1
    let f := quantifierFusion h.1 mn mx
    (Element.quantifier f.1.1 f.1.2.1 f.1.2.2, c.2 || (h.2 || f.2))

def optElems : List Element → List Element × Bool
  | [] => ([], false)
  | e :: es =>
    let r1 := optElement e
    let r2 := optElems es
    (r1.1 :: r2.1, r1.2 || r2.2)

def optAlts : List (List Element) → List (List Element) × Bool
  | [] => ([], false)
  | c :: cs =>
    let ce := optElems c
    let i := inlineConcat ce.1
    let q := letQuantifiersConsumeNeighbors i.1
    let r2 := optAlts cs
    (q.1 :: r2.1, (ce.2 || (i.2 || q.2)) || r2.2)

end

/-- One `optimize` pass over the whole expression (to-regex.ts:949-985). -/
def optimize (expr : Expression) : Expression × Bool :=
  let c := optAlts expr.alternatives
  let h := onNodeWithAlternatives c.1
  (Expression.mk h.1, c.2 || h.2)

/-- The optimization loop of `faToRegex` (to-regex.ts:997-999), with an
explicit pass budget (the default `Infinity` budget is modelled by
quantifying theorems over every finite budget). -/
def optimizeLoop : Nat → Expression → Expression
  | 0, e => e
  | n + 1, e =>
    let r := optimize e
    if r.2 then optimizeLoop n r.1 else r.1

/-! ## Fixed point of `optimize`: a changeless pass leaves the AST intact -/

theorem inlineAlternatives_false : ∀ (l : List (List Element)),
    (inlineAlternatives l).2 = false → (inlineAlternatives l).1 = l := by
  intro l
  induction l using inlineAlternatives.induct with
  | case1 =>
    intro _
    rw [inlineAlternatives]
  | case2 alts rest ih =>
    intro h
    rw [inlineAlternatives] at h
    simp at h
  | case3 c rest hne ih =>
    intro h
    rw [inlineAlternatives] at h ⊢
    · show c :: (inlineAlternatives rest).1 = c :: rest
      rw [ih h]
    · exact hne
    · exact hne

theorem optimizeEmptyString_false (l : List (List Element)) :
    (optimizeEmptyString l).2 = false → (optimizeEmptyString l).1 = l := by
  simp only [optimizeEmptyString]
  split
  · split
    · intro h
      simp at h
    · split
      · intro h
        simp at h
      · split
        · intro h
          simp at h
        · intro h
          simp at h
  · intro _
    rfl

theorem factorOut_false (l : List (List Element)) :
    (factorOutCommonPreAndSuffix l).2 = false → (factorOutCommonPreAndSuffix l).1 = l := by
  simp only [factorOutCommonPreAndSuffix]
  split
  · split
    · intro _
      rfl
    · split
      · intro h
        simp at h
      · intro _
        rfl
  · intro _
    rfl

theorem inlineConcat_false : ∀ (l : List Element),
    (inlineConcat l).2 = false → (inlineConcat l).1 = l := by
  intro l
  induction l using inlineConcat.induct with
  | case1 =>
    intro _
    rw [inlineConcat]
  | case2 es mn single hcond ih =>
    intro h
    have hg : inlineConcat (Element.quantifier [single] mn (some 1) :: es) =
        (if (mn == 1 || mn == 0 && canMatchEmptyStringAlts [single]) = true
          then ((inlineConcat (single ++ es)).1, true)
          else (Element.quantifier [single] mn (some 1) :: (inlineConcat es).1,
            (inlineConcat es).2)) :=
      (inlineConcat.eq_def _).trans rfl
    rw [hg, if_pos hcond] at h
    simp at h
  | case3 es alts mn hcond hne ih =>
    intro h
    cases alts with
    | nil =>
      have hg : inlineConcat (Element.quantifier [] mn (some 1) :: es) =
          (if (mn == 1 || mn == 0 && canMatchEmptyStringAlts []) = true
            then (Element.alternation [] :: (inlineConcat es).1, true)
            else (Element.quantifier [] mn (some 1) :: (inlineConcat es).1,
              (inlineConcat es).2)) :=
        (inlineConcat.eq_def _).trans rfl
      rw [hg, if_pos hcond] at h
      simp at h
    | cons c1 r1 =>
      cases r1 with
      | nil => exact absurd rfl (hne c1)
      | cons c2 r2 =>
        have hg : inlineConcat (Element.quantifier (c1 :: c2 :: r2) mn (some 1) :: es) =
            (if (mn == 1 || mn == 0 && canMatchEmptyStringAlts (c1 :: c2 :: r2)) = true
              then (Element.alternation (c1 :: c2 :: r2) :: (inlineConcat es).1, true)
              else (Element.quantifier (c1 :: c2 :: r2) mn (some 1) :: (inlineConcat es).1,
                (inlineConcat es).2)) :=
          (inlineConcat.eq_def _).trans rfl
        rw [hg, if_pos hcond] at h
        simp at h
  | case4 es alts mn hcond ih =>
    intro h
    cases alts with
    | nil =>
      have hg : inlineConcat (Element.quantifier [] mn (some 1) :: es) =
          (if (mn == 1 || mn == 0 && canMatchEmptyStringAlts []) = true
            then (Element.alternation [] :: (inlineConcat es).1, true)
            else (Element.quantifier [] mn (some 1) :: (inlineConcat es).1,
              (inlineConcat es).2)) :=
        (inlineConcat.eq_def _).trans rfl
      rw [hg, if_neg hcond] at h ⊢
      show Element.quantifier [] mn (some 1) :: (inlineConcat es).1 =
        Element.quantifier [] mn (some 1) :: es
      rw [ih h]
    | cons c1 r1 =>
      cases r1 with
      | nil =>
        have hg : inlineConcat (Element.quantifier [c1] mn (some 1) :: es) =
            (if (mn == 1 || mn == 0 && canMatchEmptyStringAlts [c1]) = true
              then ((inlineConcat (c1 ++ es)).1, true)
              else (Element.quantifier [c1] mn (some 1) :: (inlineConcat es).1,
                (inlineConcat es).2)) :=
          (inlineConcat.eq_def _).trans rfl
        rw [hg, if_neg hcond] at h ⊢
        show Element.quantifier [c1] mn (some 1) :: (inlineConcat es).1 =
          Element.quantifier [c1] mn (some 1) :: es
        rw [ih h]
      | cons c2 r2 =>
        have hg : inlineConcat (Element.quantifier (c1 :: c2 :: r2) mn (some 1) :: es) =
            (if (mn == 1 || mn == 0 && canMatchEmptyStringAlts (c1 :: c2 :: r2)) = true
              then (Element.alternation (c1 :: c2 :: r2) :: (inlineConcat es).1, true)
              else (Element.quantifier (c1 :: c2 :: r2) mn (some 1) :: (inlineConcat es).1,
                (inlineConcat es).2)) :=
          (inlineConcat.eq_def _).trans rfl
        rw [hg, if_neg hcond] at h ⊢
        show Element.quantifier (c1 :: c2 :: r2) mn (some 1) :: (inlineConcat es).1 =
          Element.quantifier (c1 :: c2 :: r2) mn (some 1) :: es
        rw [ih h]
  | case5 es single ih =>
    intro h
    rw [inlineConcat.eq_def] at h
    simp at h
  | case6 e es hq hne ih =>
    intro h
    have hred : inlineConcat (e :: es) =
        (e :: (inlineConcat es).1, (inlineConcat es).2) := by
      cases e with
      | characterClass cs => rw [inlineConcat.eq_def]
      | assertion k n alts => rw [inlineConcat.eq_def]
      | alternation alts =>
        cases alts with
        | nil => rw [inlineConcat.eq_def]
        | cons c1 rest1 =>
          cases rest1 with
          | nil => exact absurd rfl (hne c1)
          | cons c2 rest2 => rw [inlineConcat.eq_def]
      | quantifier alts mn mx =>
        cases mx with
        | none => rw [inlineConcat.eq_def]
        | some n =>
          cases n with
          | zero => rw [inlineConcat.eq_def]
          | succ n2 =>
            cases n2 with
            | zero => exact absurd rfl (hq alts mn)
            | succ n3 =>
              rw [inlineConcat.eq_def]
              rfl
    rw [hred] at h ⊢
    show e :: (inlineConcat es).1 = e :: es
    rw [ih h]

theorem consumeAux_false : ∀ (l : List Element) (prev : Element),
    (consumeAux prev l).2 = false → (consumeAux prev l).1 = prev :: l := by
  intro l
  induction l with
  | nil =>
    intro prev _
    rw [consumeAux]
  | cons x rest ih =>
    intro prev
    cases prev with
    | quantifier qalts qmin qmax =>
      rw [consumeAux]
      split
      · intro h
        simp at h
      · intro h
        show Element.quantifier qalts qmin qmax :: (consumeAux x rest).1 =
          Element.quantifier qalts qmin qmax :: x :: rest
        rw [ih x h]
    | characterClass cs =>
      rw [consumeAux]
      · intro h
        show Element.characterClass cs :: (consumeAux x rest).1 =
          Element.characterClass cs :: x :: rest
        rw [ih x h]
      · exact fun _ _ _ hh => Element.noConfusion hh
    | alternation alts =>
      rw [consumeAux]
      · intro h
        show Element.alternation alts :: (consumeAux x rest).1 =
          Element.alternation alts :: x :: rest
        rw [ih x h]
      · exact fun _ _ _ hh => Element.noConfusion hh
    | assertion k n alts =>
      rw [consumeAux]
      · intro h
        show Element.assertion k n alts :: (consumeAux x rest).1 =
          Element.assertion k n alts :: x :: rest
        rw [ih x h]
      · exact fun _ _ _ hh => Element.noConfusion hh

theorem consumeLTR_false (l : List Element) :
    (consumeLTR l).2 = false → (consumeLTR l).1 = l := by
  cases l with
  | nil =>
    intro _
    rw [consumeLTR]
  | cons x rest =>
    rw [consumeLTR]
    exact consumeAux_false rest x

theorem mergeAdjAux_false : ∀ (l : List Element) (prev : Element),
    (mergeAdjAux prev l).2 = false → (mergeAdjAux prev l).1 = prev :: l := by
  intro l
  induction l with
  | nil =>
    intro prev _
    rw [mergeAdjAux]
  | cons x rest ih =>
    intro prev
    cases prev with
    | quantifier qalts qmin qmax =>
      cases x with
      | quantifier xalts xmin xmax =>
        rw [mergeAdjAux]
        split
        · intro h
          simp at h
        · intro h
          show Element.quantifier qalts qmin qmax ::
              (mergeAdjAux (Element.quantifier xalts xmin xmax) rest).1 =
            Element.quantifier qalts qmin qmax :: Element.quantifier xalts xmin xmax :: rest
          rw [ih _ h]
      | characterClass cs =>
        rw [mergeAdjAux]
        · intro h
          show Element.quantifier qalts qmin qmax ::
              (mergeAdjAux (Element.characterClass cs) rest).1 =
            Element.quantifier qalts qmin qmax :: Element.characterClass cs :: rest
          rw [ih _ h]
        · exact fun _ _ _ _ _ _ _ hh => Element.noConfusion hh
      | alternation alts2 =>
        rw [mergeAdjAux]
        · intro h
          show Element.quantifier qalts qmin qmax ::
              (mergeAdjAux (Element.alternation alts2) rest).1 =
            Element.quantifier qalts qmin qmax :: Element.alternation alts2 :: rest
          rw [ih _ h]
        · exact fun _ _ _ _ _ _ _ hh => Element.noConfusion hh
      | assertion k2 n2 alts2 =>
        rw [mergeAdjAux]
        · intro h
          show Element.quantifier qalts qmin qmax ::
              (mergeAdjAux (Element.assertion k2 n2 alts2) rest).1 =
            Element.quantifier qalts qmin qmax :: Element.assertion k2 n2 alts2 :: rest
          rw [ih _ h]
        · exact fun _ _ _ _ _ _ _ hh => Element.noConfusion hh
    | characterClass cs =>
      rw [mergeAdjAux]
      · intro h
        show Element.characterClass cs :: (mergeAdjAux x rest).1 =
          Element.characterClass cs :: x :: rest
        rw [ih _ h]
      · exact fun _ _ _ _ _ _ hh _ => Element.noConfusion hh
    | alternation alts2 =>
      rw [mergeAdjAux]
      · intro h
        show Element.alternation alts2 :: (mergeAdjAux x rest).1 =
          Element.alternation alts2 :: x :: rest
        rw [ih _ h]
      · exact fun _ _ _ _ _ _ hh _ => Element.noConfusion hh
    | assertion k2 n2 alts2 =>
      rw [mergeAdjAux]
      · intro h
        show Element.assertion k2 n2 alts2 :: (mergeAdjAux x rest).1 =
          Element.assertion k2 n2 alts2 :: x :: rest
        rw [ih _ h]
      · exact fun _ _ _ _ _ _ hh _ => Element.noConfusion hh

theorem letQuantifiers_false (l : List Element) :
    (letQuantifiersConsumeNeighbors l).2 = false → (letQuantifiersConsumeNeighbors l).1 = l := by
  intro h
  simp only [letQuantifiersConsumeNeighbors] at h ⊢
  rw [Bool.or_eq_false_iff, Bool.or_eq_false_iff] at h
  obtain ⟨h1, h2, h4⟩ := h
  have e1 : (consumeLTR l).1 = l := consumeLTR_false l h1
  rw [e1] at h2 h4 ⊢
  have e2 : (consumeLTR l.reverse).1 = l.reverse := consumeLTR_false _ h2
  rw [e2] at h4 ⊢
  rw [List.reverse_reverse] at h4 ⊢
  cases l with
  | nil => rfl
  | cons x rest =>
    have h5 : (mergeAdjAux x rest).2 = false := h4
    show (mergeAdjAux x rest).1 = x :: rest
    exact mergeAdjAux_false rest x h5

theorem quantifierFusion_false (alts : List (List Element)) (mn : Nat) (mx : Option Nat) :
    (quantifierFusion alts mn mx).2 = false → (quantifierFusion alts mn mx).1 = (alts, mn, mx) := by
  rw [quantifierFusion]
  split
  · split
    · split
      · intro h
        simp at h
      · intro _
        rfl
    · intro _
      rfl
  · intro _
    rfl

theorem onNodeWithAlternatives_false (alts : List (List Element)) :
    (onNodeWithAlternatives alts).2 = false → (onNodeWithAlternatives alts).1 = alts := by
  intro h
  simp only [onNodeWithAlternatives] at h ⊢
  rw [Bool.or_eq_false_iff, Bool.or_eq_false_iff] at h
  obtain ⟨h1, h2, h3⟩ := h
  have e1 := inlineAlternatives_false alts h1
  rw [e1] at h2 h3 ⊢
  have e2 := optimizeEmptyString_false alts h2
  rw [e2] at h3 ⊢
  exact factorOut_false alts h3

mutual

theorem optElement_false : ∀ (e : Element), (optElement e).2 = false → (optElement e).1 = e := by
  intro e h
  match e with
  | Element.characterClass cs => rfl
  | Element.alternation alts =>
    simp only [optElement] at h ⊢
    rw [Bool.or_eq_false_iff] at h
    have e1 := optAlts_false alts h.1
    rw [e1] at h ⊢
    rw [onNodeWithAlternatives_false alts h.2]
  | Element.assertion k n alts =>
    simp only [optElement] at h ⊢
    rw [Bool.or_eq_false_iff] at h
    have e1 := optAlts_false alts h.1
    rw [e1] at h ⊢
    rw [onNodeWithAlternatives_false alts h.2]
  | Element.quantifier alts mn mx =>
    simp only [optElement] at h ⊢
    rw [Bool.or_eq_false_iff, Bool.or_eq_false_iff] at h
    obtain ⟨h1, h2, h3⟩ := h
    have e1 := optAlts_false alts h1
    rw [e1] at h2 h3 ⊢
    have e2 := onNodeWithAlternatives_false alts h2
    rw [e2] at h3 ⊢
    have e3 := quantifierFusion_false alts mn mx h3
    rw [e3]

theorem optElems_false : ∀ (l : List Element), (optElems l).2 = false → (optElems l).1 = l := by
  intro l h
  match l with
  | [] => rfl
  | e :: es =>
    simp only [optElems] at h ⊢
    rw [Bool.or_eq_false_iff] at h
    rw [optElement_false e h.1, optElems_false es h.2]

theorem optAlts_false : ∀ (l : List (List Element)), (optAlts l).2 = false → (optAlts l).1 = l := by
  intro l h
  match l with
  | [] => rfl
  | c :: cs =>
    simp only [optAlts] at h ⊢
    rw [Bool.or_eq_false_iff, Bool.or_eq_false_iff, Bool.or_eq_false_iff] at h
    obtain ⟨⟨h1, h2, h3⟩, h4⟩ := h
    have e1 := optElems_false c h1
    rw [e1] at h2 h3 ⊢
    have e2 := inlineConcat_false c h2
    rw [e2] at h3 ⊢
    rw [letQuantifiers_false c h3, optAlts_false cs h4]

end

/-! ## Claim C7 (amended): the fixed point of the simplifier -/

/-- C7 (amended): once `optimize` reports no change, the expression is
structurally unchanged, and one further pass again reports no change and
leaves it unchanged. (The node-count-monotonicity half of the original
claim is refuted by `claim_optimize_monotonic_counterexample`.) -/
theorem claim_optimize_fixpoint (e : Expression) (h : (optimize e).2 = false) :
    (optimize e).1 = e ∧ (optimize ((optimize e).1)).2 = false ∧
      (optimize ((optimize e).1)).1 = (optimize e).1 := by
  have h1 : (optimize e).1 = e := by
    simp only [optimize] at h ⊢
    rw [Bool.or_eq_false_iff] at h
    have e1 := optAlts_false _ h.1
    rw [e1] at h ⊢
    rw [onNodeWithAlternatives_false _ h.2]
  refine ⟨h1, ?_, ?_⟩
  · rw [h1]
    exact h
  · rw [h1]
    exact h1

theorem claim_optimize_fixpoint_witness :
    (optimize (Expression.mk [[Element.characterClass (CharSet.mk 3 [])]])).2 = false ∧
      ((optimize (Expression.mk [[Element.characterClass (CharSet.mk 3 [])]])).1 =
          Expression.mk [[Element.characterClass (CharSet.mk 3 [])]] ∧
        (optimize ((optimize (Expression.mk [[Element.characterClass (CharSet.mk 3 [])]])).1)).2 =
          false ∧
        (optimize ((optimize (Expression.mk [[Element.characterClass (CharSet.mk 3 [])]])).1)).1 =
          (optimize (Expression.mk [[Element.characterClass (CharSet.mk 3 [])]])).1) := by
  have hfalse : (optimize (Expression.mk [[Element.characterClass (CharSet.mk 3 [])]])).2 =
      false := by
    simp [optimize, optAlts, optElems, optElement, onNodeWithAlternatives, inlineAlternatives,
      optimizeEmptyString, factorOutCommonPreAndSuffix, inlineConcat,
      letQuantifiersConsumeNeighbors, consumeLTR, consumeAux, mergeAdjAux, jsSort, sInsert,
      commonPreLen]
  exact ⟨hfalse, claim_optimize_fixpoint (Expression.mk [[Element.characterClass
    (CharSet.mk 3 [])]]) hfalse⟩

/-- Counterexample to the first half of C7: one `optimize` pass can grow
the node count. On `(?:|a)` (an expression with an empty alternative and
a one-character alternative, 4 AST nodes), empty-string normalization
(to-regex.ts:802-817) wraps the remaining alternative in a fresh
`{0,1}` quantifier inside a fresh concatenation, producing 5 AST nodes. -/
theorem claim_optimize_monotonic_counterexample :
    exprSize (Expression.mk [[], [Element.characterClass (CharSet.mk 3 [CharRange.mk 0 0])]]) =
        4 ∧
      exprSize ((optimize (Expression.mk
        [[], [Element.characterClass (CharSet.mk 3 [CharRange.mk 0 0])]])).1) = 5 := by
  constructor
  · simp [exprSize, altsSize, elementsSize, elementSize]
  · have hres : (optimize (Expression.mk
        [[], [Element.characterClass (CharSet.mk 3 [CharRange.mk 0 0])]])).1 =
        Expression.mk [[Element.quantifier
          [[Element.characterClass (CharSet.mk 3 [CharRange.mk 0 0])]] 0 (some 1)]] := by
      simp [optimize, optAlts, optElems, optElement, onNodeWithAlternatives, inlineAlternatives,
        optimizeEmptyString, factorOutCommonPreAndSuffix, inlineConcat,
        letQuantifiersConsumeNeighbors, consumeLTR, consumeAux, mergeAdjAux, jsSort, sInsert,
        commonPreLen, lowerFirstMinOneQuantifier, canMatchEmptyStringConcat, canMatchEmptyString,
        canMatchEmptyStringAlts]
    rw [hres]
    simp [exprSize, altsSize, elementsSize, elementSize]

/-! ## Claim C6: the graph builder's transition sort -/

/-- The transition comparator of `createNodeList` (to-regex.ts:207-218):
the `isEmpty` flags first (`Number(a.isEmpty) - Number(b.isEmpty)`), then
the lexicographic range loop; `cmpPairsLoop` also covers the final
`a.ranges.length - b.ranges.length` line because the loop has consumed a
common prefix. -/
def builderSortCompare (a b : CharSet) : Int :=
  let diff := (if a.isEmpty then (1 : Int) else 0) - (if b.isEmpty then (1 : Int) else 0)
  if diff ≠ 0 then diff else cmpPairsLoop a.ranges b.ranges

/-- `[...iter.getOut(n)].sort(([, a], [, b]) => ...)` (to-regex.ts:207). -/
def sortOutTransitions {T : Type} (out : List (T × CharSet)) : List (T × CharSet) :=
  jsSort (fun x y => builderSortCompare x.2 y.2) out

theorem sInsert_pairwise {α : Type} (cmp : α → α → Int) (f : α → Bool)
    (h1 : ∀ x y, cmp x y ≤ 0 → f x = true → f y = true)
    (h2 : ∀ x y, 0 < cmp x y → f y = true → f x = true) :
    ∀ (l : List α) (x : α), l.Pairwise (fun a b => f a = true → f b = true) →
      (sInsert cmp l x).Pairwise (fun a b => f a = true → f b = true) := by
  intro l
  induction l with
  | nil =>
    intro x _
    rw [sInsert]
    exact List.pairwise_singleton _ _
  | cons y ys ih =>
    intro x hp
    rw [sInsert]
    split
    · rename_i hle
      refine List.Pairwise.cons ?_ (ih x (List.pairwise_cons.mp hp).2)
      intro z hz
      rcases sInsert_mem cmp ys x z hz with rfl | hz2
      · exact h1 y z hle
      · exact (List.pairwise_cons.mp hp).1 z hz2
    · rename_i hgt
      have hxy : f x = true → f y = true := h2 y x (by omega)
      refine List.Pairwise.cons ?_ hp
      intro z hz
      rcases List.mem_cons.mp hz with rfl | hz2
      · exact hxy
      · intro hfx
        exact (List.pairwise_cons.mp hp).1 z hz2 (hxy hfx)

theorem jsSort_pairwise {α : Type} (cmp : α → α → Int) (f : α → Bool)
    (h1 : ∀ x y, cmp x y ≤ 0 → f x = true → f y = true)
    (h2 : ∀ x y, 0 < cmp x y → f y = true → f x = true) (l : List α) :
    (jsSort cmp l).Pairwise (fun a b => f a = true → f b = true) := by
  rw [jsSort]
  suffices hsuf : ∀ (l2 acc : List α),
      acc.Pairwise (fun a b => f a = true → f b = true) →
      (l2.foldl (sInsert cmp) acc).Pairwise (fun a b => f a = true → f b = true) from
    hsuf l [] List.Pairwise.nil
  intro l2
  induction l2 with
  | nil =>
    intro acc hacc
    exact hacc
  | cons x xs ih =>
    intro acc hacc
    rw [List.foldl_cons]
    exact ih (sInsert cmp acc x) (sInsert_pairwise cmp f h1 h2 acc x hacc)

/-- Counterexample to C6 as stated: the builder comparator sorts empty
`CharSet`s *last*, not first — `Number(a.isEmpty) - Number(b.isEmpty)` is
positive when `a` is empty and `b` is not, which moves `a` after `b`. On
a two-transition list with the empty set first, the sort emits the
non-empty transition first. -/
theorem claim_builder_sort_counterexample :
    sortOutTransitions [((0 : Nat), CharSet.empty 5), (1, CharSet.all 5)] =
        [(1, CharSet.all 5), (0, CharSet.empty 5)] ∧
      (CharSet.empty 5).isEmpty = true ∧ (CharSet.all 5).isEmpty = false :=
  ⟨rfl, rfl, rfl⟩

/-- C6 (amended): in the builder's sorted transition list, the
transitions with an empty `CharSet` come after all transitions with a
non-empty `CharSet`: whenever an empty one precedes some transition, that
transition is empty as well. -/
theorem claim_builder_sort_amended {T : Type} (out : List (T × CharSet)) :
    (sortOutTransitions out).Pairwise
      (fun x y => x.2.isEmpty = true → y.2.isEmpty = true) := by
  rw [sortOutTransitions]
  refine jsSort_pairwise _ (fun x => x.2.isEmpty) ?_ ?_ out
  · intro x y hle hx
    cases hyv : y.2.isEmpty with
    | true => exact hyv
    | false =>
      have hx2 : x.2.isEmpty = true := hx
      have hval : builderSortCompare x.2 y.2 = 1 := by
        simp [builderSortCompare, hx2, hyv]
      rw [hval] at hle
      omega
  · intro x y hgt hy
    cases hxv : x.2.isEmpty with
    | true => exact hxv
    | false =>
      have hy2 : y.2.isEmpty = true := hy
      have hval : builderSortCompare x.2 y.2 = -1 := by
        simp [builderSortCompare, hxv, hy2]
      rw [hval] at hgt
      omega

/-! ## Claim C8: the transition factory node ceiling

`TransitionCreator` (to-regex.ts:65-166) increments a private counter on
every node construction and throws `TooManyNodesError` (from
`finite-automaton.ts`, which is not under `src/`; modelled from the spec
as an error value) once the counter exceeds `max`. -/

/-- Errors of the `to-regex` machinery: `TooManyNodesError` and the
`assertNever` guard of `copy` (to-regex.ts:183). -/
inductive TErr where
  | tooManyNodes
  | assertNever
deriving DecidableEq, Repr

/-- `_incrementCounter` (to-regex.ts:69-73): pre-increment, then throw if
the new count exceeds `max`. -/
def incrementCounter (mx c : Nat) : Except TErr Nat :=
  if mx < c + 1 then Except.error TErr.tooManyNodes else Except.ok (c + 1)

/-- `concat` (to-regex.ts:75-82). -/
def tcConcat (mx : Nat) (elements : List Element) (c : Nat) :
    Except TErr (List Element × Nat) :=
  (incrementCounter mx c).map (fun c2 => (elements, c2))

/-- `emptyConcat` (to-regex.ts:83-90). -/
def tcEmptyConcat (mx c : Nat) : Except TErr (List Element × Nat) :=
  (incrementCounter mx c).map (fun c2 => (([] : List Element), c2))

/-- `alter` (to-regex.ts:92-99). -/
def tcAlter (mx : Nat) (alternatives : List (List Element)) (c : Nat) :
    Except TErr (Element × Nat) :=
  (incrementCounter mx c).map (fun c2 => (Element.alternation alternatives, c2))

/-- `emptyAlter` (to-regex.ts:100-107). -/
def tcEmptyAlter (mx c : Nat) : Except TErr (Element × Nat) :=
  (incrementCounter mx c).map (fun c2 => (Element.alternation [], c2))

/-- `expression` (to-regex.ts:109-116). -/
def tcExpression (mx : Nat) (alternatives : List (List Element)) (c : Nat) :
    Except TErr (Expression × Nat) :=
  (incrementCounter mx c).map (fun c2 => (Expression.mk alternatives, c2))

/-- `emptyExpression` (to-regex.ts:117-124). -/
def tcEmptyExpression (mx c : Nat) : Except TErr (Expression × Nat) :=
  (incrementCounter mx c).map (fun c2 => (Expression.mk [], c2))

/-- `char` (to-regex.ts:126-133). -/
def tcChar (mx : Nat) (characters : CharSet) (c : Nat) : Except TErr (Element × Nat) :=
  (incrementCounter mx c).map (fun c2 => (Element.characterClass characters, c2))

/-- `quant` (to-regex.ts:135-144). -/
def tcQuant (mx : Nat) (alternatives : List (List Element)) (mn : Nat) (mq : Option Nat)
    (c : Nat) : Except TErr (Element × Nat) :=
  (incrementCounter mx c).map (fun c2 => (Element.quantifier alternatives mn mq, c2))

/-- `quantStar` (to-regex.ts:145-153). -/
def tcQuantStar (mx : Nat) (alternatives : List (List Element)) (c : Nat) :
    Except TErr (Element × Nat) :=
  (incrementCounter mx c).map (fun c2 => (Element.quantifier alternatives 0 none, c2))

/-- `quantPlus` (to-regex.ts:154-162). -/
def tcQuantPlus (mx : Nat) (alternatives : List (List Element)) (c : Nat) :
    Except TErr (Element × Nat) :=
  (incrementCounter mx c).map (fun c2 => (Element.quantifier alternatives 1 none, c2))

mutual

/-- `copy` (to-regex.ts:165-185) on a non-`Concatenation` transition:
children are copied first (`t.alternatives.map(a => this.copy(a))`), then
the node itself is counted by the creator call; an `Assertion` falls into
the `assertNever` default branch. -/
def copyElement (mx : Nat) : Element → Nat → Except TErr (Element × Nat)
  | Element.characterClass cs, c =>
    (incrementCounter mx c).map (fun c2 => (Element.characterClass cs, c2))
  | Element.alternation alts, c => do
    let (alts2, c2) ← copyAlts mx alts c
    let c3 ← incrementCounter mx c2
    Except.ok (Element.alternation alts2, c3)
  | Element.quantifier alts mn mq, c => do
    let (alts2, c2) ← copyAlts mx alts c
    let c3 ← incrementCounter mx c2
    Except.ok (Element.quantifier alts2 mn mq, c3)
  | Element.assertion _ _ _, _ => Except.error TErr.assertNever

/-- The element-wise copies performed by
`t.elements.map(e => this.copy(e))` (to-regex.ts:172). -/
def copyElems (mx : Nat) : List Element → Nat → Except TErr (List Element × Nat)
  | [], c => Except.ok ([], c)
  | e :: rest, c => do
    let (e2, c2) ← copyElement mx e c
    let (rest2, c3) ← copyElems mx rest c2
    Except.ok (e2 :: rest2, c3)

/-- The alternative-wise copies of `copy` on alternation/quantifier
nodes: each alternative is a `Concatenation`, so its elements are copied
and then `concat` counts the concatenation node itself. -/
def copyAlts (mx : Nat) : List (List Element) → Nat → Except TErr (List (List Element) × Nat)
  | [], c => Except.ok ([], c)
  | a :: r, c => do
    let (a2, c2) ← copyElems mx a c
    let c3 ← incrementCounter mx c2
    let (r2, c4) ← copyAlts mx r c3
    Except.ok (a2 :: r2, c4)

end

/-- `copy` (to-regex.ts:165) on a `Concatenation` transition. -/
def copyConcat (mx : Nat) (es : List Element) (c : Nat) : Except TErr (List Element × Nat) := do
  let (es2, c2) ← copyElems mx es c
  let c3 ← incrementCounter mx c2
  Except.ok (es2, c3)

mutual

/-- An element free of `Assertion` nodes (the shapes `copy` supports). -/
def elementAF : Element → Bool
  | Element.characterClass _ => true
  | Element.alternation alts => altsAF alts
  | Element.quantifier alts _ _ => altsAF alts
  | Element.assertion _ _ _ => false

def elemsAF : List Element → Bool
  | [] => true
  | e :: r => elementAF e && elemsAF r

def altsAF : List (List Element) → Bool
  | [] => true
  | a :: r => elemsAF a && altsAF r

end

mutual

theorem copyElement_spec (mx : Nat) (e : Element) (c : Nat) (h : elementAF e = true)
    (hc : c ≤ mx) :
    copyElement mx e c =
      if mx < c + elementSize e then Except.error TErr.tooManyNodes
      else Except.ok (e, c + elementSize e) := by
  cases e with
  | characterClass cs =>
    rw [copyElement, incrementCounter, elementSize]
    split
    · rfl
    · rfl
  | alternation alts =>
    rw [copyElement, copyAlts_spec mx alts c (by exact h) hc]
    by_cases hlt : mx < c + altsSize alts
    · rw [if_pos hlt, if_pos (by rw [elementSize]; omega)]
      rfl
    · rw [if_neg hlt]
      show (incrementCounter mx (c + altsSize alts)).bind _ = _
      rw [incrementCounter, elementSize]
      by_cases h2 : mx < c + altsSize alts + 1
      · rw [if_pos h2, if_pos (by omega)]
        rfl
      · rw [if_neg h2, if_neg (by omega)]
        exact congrArg (fun n => Except.ok (Element.alternation alts, n))
          (by omega : c + altsSize alts + 1 = c + (1 + altsSize alts))
  | quantifier alts mn mq =>
    rw [copyElement, copyAlts_spec mx alts c (by exact h) hc]
    by_cases hlt : mx < c + altsSize alts
    · rw [if_pos hlt, if_pos (by rw [elementSize]; omega)]
      rfl
    · rw [if_neg hlt]
      show (incrementCounter mx (c + altsSize alts)).bind _ = _
      rw [incrementCounter, elementSize]
      by_cases h2 : mx < c + altsSize alts + 1
      · rw [if_pos h2, if_pos (by omega)]
        rfl
      · rw [if_neg h2, if_neg (by omega)]
        exact congrArg (fun n => Except.ok (Element.quantifier alts mn mq, n))
          (by omega : c + altsSize alts + 1 = c + (1 + altsSize alts))
  | assertion k n alts =>
    exact absurd h (by rw [elementAF]; exact Bool.false_ne_true)

theorem copyElems_spec (mx : Nat) (es : List Element) (c : Nat) (h : elemsAF es = true)
    (hc : c ≤ mx) :
    copyElems mx es c =
      if mx < c + elementsSize es then Except.error TErr.tooManyNodes
      else Except.ok (es, c + elementsSize es) := by
  cases es with
  | nil =>
    rw [copyElems, elementsSize, if_neg (by omega)]
    rfl
  | cons e rest =>
    rw [elemsAF, Bool.and_eq_true] at h
    rw [copyElems, copyElement_spec mx e c h.1 hc]
    by_cases hlt : mx < c + elementSize e
    · rw [if_pos hlt, if_pos (by rw [elementsSize]; have := elementSize_pos e; omega)]
      rfl
    · rw [if_neg hlt]
      show (copyElems mx rest (c + elementSize e)).bind _ = _
      rw [copyElems_spec mx rest (c + elementSize e) h.2 (by omega)]
      by_cases hlt2 : mx < c + elementSize e + elementsSize rest
      · rw [if_pos hlt2, if_pos (by rw [elementsSize]; omega)]
        rfl
      · rw [if_neg hlt2, if_neg (by rw [elementsSize]; omega), elementsSize]
        exact congrArg (fun n => Except.ok (e :: rest, n))
          (by omega : c + elementSize e + elementsSize rest
            = c + (elementSize e + elementsSize rest))

theorem copyAlts_spec (mx : Nat) (alts : List (List Element)) (c : Nat)
    (h : altsAF alts = true) (hc : c ≤ mx) :
    copyAlts mx alts c =
      if mx < c + altsSize alts then Except.error TErr.tooManyNodes
      else Except.ok (alts, c + altsSize alts) := by
  cases alts with
  | nil =>
    rw [copyAlts, altsSize, if_neg (by omega)]
    rfl
  | cons a r =>
    rw [altsAF, Bool.and_eq_true] at h
    rw [copyAlts, copyElems_spec mx a c h.1 hc]
    by_cases hlt : mx < c + elementsSize a
    · rw [if_pos hlt, if_pos (by rw [altsSize]; omega)]
      rfl
    · rw [if_neg hlt]
      show (incrementCounter mx (c + elementsSize a)).bind _ = _
      rw [incrementCounter]
      by_cases hlt2 : mx < c + elementsSize a + 1
      · rw [if_pos hlt2, if_pos (by rw [altsSize]; omega)]
        rfl
      · rw [if_neg hlt2]
        show (copyAlts mx r (c + elementsSize a + 1)).bind _ = _
        rw [copyAlts_spec mx r (c + elementsSize a + 1) h.2 (by omega)]
        by_cases hlt3 : mx < c + elementsSize a + 1 + altsSize r
        · rw [if_pos hlt3, if_pos (by rw [altsSize]; omega)]
          rfl
        · rw [if_neg hlt3, if_neg (by rw [altsSize]; omega), altsSize]
          exact congrArg (fun n => Except.ok (a :: r, n))
            (by omega : c + elementsSize a + 1 + altsSize r
              = c + (1 + elementsSize a + altsSize r))

end

/-- One call into the `TransitionCreator` factory: a conversion is a
sequence of such calls, and every AST node it constructs is constructed
by exactly one of them. -/
inductive FOp where
  | mkConcat (elements : List Element)
  | mkEmptyConcat
  | mkAlter (alternatives : List (List Element))
  | mkEmptyAlter
  | mkExpression (alternatives : List (List Element))
  | mkEmptyExpression
  | mkChar (characters : CharSet)
  | mkQuant (alternatives : List (List Element)) (mn : Nat) (mq : Option Nat)
  | mkQuantStar (alternatives : List (List Element))
  | mkQuantPlus (alternatives : List (List Element))
  | copyConcatOp (t : List Element)
  | copyTransOp (t : Element)

/-- Run one factory call against the counter, keeping the resulting
counter value. -/
def runOp (mx : Nat) : FOp → Nat → Except TErr Nat
  | FOp.mkConcat es, c => (tcConcat mx es c).map (fun p => p.2)
  | FOp.mkEmptyConcat, c => (tcEmptyConcat mx c).map (fun p => p.2)
  | FOp.mkAlter alts, c => (tcAlter mx alts c).map (fun p => p.2)
  | FOp.mkEmptyAlter, c => (tcEmptyAlter mx c).map (fun p => p.2)
  | FOp.mkExpression alts, c => (tcExpression mx alts c).map (fun p => p.2)
  | FOp.mkEmptyExpression, c => (tcEmptyExpression mx c).map (fun p => p.2)
  | FOp.mkChar cs, c => (tcChar mx cs c).map (fun p => p.2)
  | FOp.mkQuant alts mn mq, c => (tcQuant mx alts mn mq c).map (fun p => p.2)
  | FOp.mkQuantStar alts, c => (tcQuantStar mx alts c).map (fun p => p.2)
  | FOp.mkQuantPlus alts, c => (tcQuantPlus mx alts c).map (fun p => p.2)
  | FOp.copyConcatOp t, c => (copyConcat mx t c).map (fun p => p.2)
  | FOp.copyTransOp t, c => (copyElement mx t c).map (fun p => p.2)

/-- Number of AST nodes a factory call constructs: creators build one
node, `copy` builds one node per node of the copied transition. -/
def opCost : FOp → Nat
  | FOp.copyConcatOp t => elementsSize t + 1
  | FOp.copyTransOp t => elementSize t
  | _ => 1

/-- Factory calls `copy` can serve (no `Assertion` inside). -/
def opAF : FOp → Bool
  | FOp.copyConcatOp t => elemsAF t
  | FOp.copyTransOp t => elementAF t
  | _ => true

/-- Run a conversion, i.e. a sequence of factory calls, threading the
counter from `c`. -/
def runOps (mx : Nat) : List FOp → Nat → Except TErr Nat
  | [], c => Except.ok c
  | op :: rest, c => (runOp mx op c).bind (runOps mx rest)

/-- Total number of AST nodes a conversion constructs. -/
def opsCost : List FOp → Nat
  | [] => 0
  | op :: rest => opCost op + opsCost rest

def opsAF : List FOp → Bool
  | [] => true
  | op :: rest => opAF op && opsAF rest

theorem runOp_spec (mx : Nat) (op : FOp) (c : Nat) (h : opAF op = true) (hc : c ≤ mx) :
    runOp mx op c =
      if mx < c + opCost op then Except.error TErr.tooManyNodes
      else Except.ok (c + opCost op) := by
  cases op with
  | copyConcatOp t =>
    have hco : opCost (FOp.copyConcatOp t) = elementsSize t + 1 := rfl
    rw [runOp, copyConcat, copyElems_spec mx t c (by exact h) hc, hco]
    by_cases hlt : mx < c + elementsSize t
    · rw [if_pos hlt, if_pos (by omega)]
      rfl
    · rw [if_neg hlt]
      show Except.map (fun p => p.2)
          ((incrementCounter mx (c + elementsSize t)).bind
            (fun c3 => Except.ok (t, c3))) = _
      rw [incrementCounter]
      by_cases hlt2 : mx < c + elementsSize t + 1
      · rw [if_pos hlt2, if_pos (by omega)]
        rfl
      · rw [if_neg hlt2, if_neg (by omega)]
        show Except.ok (c + elementsSize t + 1) = Except.ok (c + (elementsSize t + 1))
        exact congrArg Except.ok (by omega)
  | copyTransOp t =>
    rw [runOp, copyElement_spec mx t c (by exact h) hc]
    rw [opCost]
    split
    · rfl
    · rfl
  | mkConcat es =>
    rw [runOp, tcConcat, incrementCounter, opCost]
    all_goals try exact fun _ hh => FOp.noConfusion hh
    split
    · rfl
    · rfl
  | mkEmptyConcat =>
    rw [runOp, tcEmptyConcat, incrementCounter, opCost]
    all_goals try exact fun _ hh => FOp.noConfusion hh
    split
    · rfl
    · rfl
  | mkAlter alts =>
    rw [runOp, tcAlter, incrementCounter, opCost]
    all_goals try exact fun _ hh => FOp.noConfusion hh
    split
    · rfl
    · rfl
  | mkEmptyAlter =>
    rw [runOp, tcEmptyAlter, incrementCounter, opCost]
    all_goals try exact fun _ hh => FOp.noConfusion hh
    split
    · rfl
    · rfl
  | mkExpression alts =>
    rw [runOp, tcExpression, incrementCounter, opCost]
    all_goals try exact fun _ hh => FOp.noConfusion hh
    split
    · rfl
    · rfl
  | mkEmptyExpression =>
    rw [runOp, tcEmptyExpression, incrementCounter, opCost]
    all_goals try exact fun _ hh => FOp.noConfusion hh
    split
    · rfl
    · rfl
  | mkChar cs =>
    rw [runOp, tcChar, incrementCounter, opCost]
    all_goals try exact fun _ hh => FOp.noConfusion hh
    split
    · rfl
    · rfl
  | mkQuant alts mn mq =>
    rw [runOp, tcQuant, incrementCounter, opCost]
    all_goals try exact fun _ hh => FOp.noConfusion hh
    split
    · rfl
    · rfl
  | mkQuantStar alts =>
    rw [runOp, tcQuantStar, incrementCounter, opCost]
    all_goals try exact fun _ hh => FOp.noConfusion hh
    split
    · rfl
    · rfl
  | mkQuantPlus alts =>
    rw [runOp, tcQuantPlus, incrementCounter, opCost]
    all_goals try exact fun _ hh => FOp.noConfusion hh
    split
    · rfl
    · rfl

theorem runOps_spec (mx : Nat) (ops : List FOp) (c : Nat) (h : opsAF ops = true)
    (hc : c ≤ mx) :
    runOps mx ops c =
      if mx < c + opsCost ops then Except.error TErr.tooManyNodes
      else Except.ok (c + opsCost ops) := by
  induction ops generalizing c with
  | nil =>
    rw [runOps, opsCost, if_neg (by omega)]
    rfl
  | cons op rest ih =>
    rw [opsAF, Bool.and_eq_true] at h
    rw [runOps, runOp_spec mx op c h.1 hc]
    by_cases hlt : mx < c + opCost op
    · rw [if_pos hlt, if_pos (by rw [opsCost]; omega)]
      rfl
    · rw [if_neg hlt]
      show runOps mx rest (c + opCost op) = _
      rw [ih (c + opCost op) h.2 (by omega)]
      by_cases hlt2 : mx < c + opCost op + opsCost rest
      · rw [if_pos hlt2, if_pos (by rw [opsCost]; omega)]
      · rw [if_neg hlt2, if_neg (by rw [opsCost]; omega)]
        exact congrArg Except.ok (by rw [opsCost]; omega)

/-- C8: the transition factory counts every constructed AST node —
creators one each, `copy` one per node of the copied tree — and a
conversion (any sequence of factory calls without `Assertion` nodes,
which `copy` does not support) fails with `TooManyNodes` exactly when
the total node count exceeds the configured `maximumNodes` ceiling;
consequently a successful conversion constructed `opsCost ops ≤
maximumNodes` nodes, and its final counter value is that count. -/
theorem claim_factory_node_ceiling (mx : Nat) (ops : List FOp) (h : opsAF ops = true) :
    (runOps mx ops 0 = Except.error TErr.tooManyNodes ↔ mx < opsCost ops) ∧
      (opsCost ops ≤ mx → runOps mx ops 0 = Except.ok (opsCost ops)) := by
  have hs := runOps_spec mx ops 0 h (Nat.zero_le mx)
  rw [Nat.zero_add] at hs
  constructor
  · constructor
    · intro he
      by_contra hnot
      rw [if_neg hnot] at hs
      rw [hs] at he
      exact Except.noConfusion he
    · intro hlt
      rw [hs, if_pos hlt]
  · intro hle
    rw [hs, if_neg (by omega)]

theorem claim_factory_node_ceiling_witness :
    opsAF [FOp.mkEmptyConcat, FOp.mkChar (CharSet.empty 3),
        FOp.copyTransOp (Element.quantifier [[Element.characterClass (CharSet.empty 3)]] 0 none)]
      = true ∧
    ((runOps 3 [FOp.mkEmptyConcat, FOp.mkChar (CharSet.empty 3),
          FOp.copyTransOp
            (Element.quantifier [[Element.characterClass (CharSet.empty 3)]] 0 none)] 0
        = Except.error TErr.tooManyNodes ↔
        3 < opsCost [FOp.mkEmptyConcat, FOp.mkChar (CharSet.empty 3),
          FOp.copyTransOp
            (Element.quantifier [[Element.characterClass (CharSet.empty 3)]] 0 none)]) ∧
      (opsCost [FOp.mkEmptyConcat, FOp.mkChar (CharSet.empty 3),
          FOp.copyTransOp
            (Element.quantifier [[Element.characterClass (CharSet.empty 3)]] 0 none)] ≤ 3 →
        runOps 3 [FOp.mkEmptyConcat, FOp.mkChar (CharSet.empty 3),
          FOp.copyTransOp
            (Element.quantifier [[Element.characterClass (CharSet.empty 3)]] 0 none)] 0
          = Except.ok (opsCost [FOp.mkEmptyConcat, FOp.mkChar (CharSet.empty 3),
              FOp.copyTransOp
                (Element.quantifier [[Element.characterClass (CharSet.empty 3)]] 0
                  none)]))) :=
  ⟨by simp [opsAF, opAF, elementAF, altsAF, elemsAF],
    claim_factory_node_ceiling 3 _ (by simp [opsAF, opAF, elementAF, altsAF, elemsAF])⟩

/-! ## Claim C5: FAs with no reachable final state

`FAIterator` and `TooManyNodesError` come from `finite-automaton.ts` and
`DFS` from `util.ts`; neither file is under `src/`. Modelled from the
spec: an `FAIterator` exposes an initial state, a final-state predicate
and the outgoing `(state, CharSet)` transitions of a state; `DFS` visits
every node reachable from the start exactly once, following the node
lists returned by the visit callback. -/
structure FAIterator (T : Type) where
  initial : T
  isFinal : T → Bool
  getOut : T → List (T × CharSet)

/-- The states reachable from `iter.initial` along `getOut` transitions. -/
inductive Reachable {T : Type} (iter : FAIterator T) : T → Prop where
  | init : Reachable iter iter.initial
  | step {a : T} (b : T) (cs : CharSet) :
    Reachable iter a → (b, cs) ∈ iter.getOut a → Reachable iter b

/-- The `DFS` traversal of `createNodeList` (to-regex.ts:199-224) with an
explicit work stack and fuel (`none` = fuel ran out; the real traversal
of a finite FA always terminates). Per newly visited node the callback
records whether the node is final and counts one `tc.char` node per
sorted outgoing transition, then descends into the targets. -/
def cnlVisit {T : Type} [DecidableEq T] (iter : FAIterator T) (mx : Nat) :
    Nat → List T → List T → Bool → Nat → Option (Except TErr (List T × Bool × Nat))
  | 0, _, _, _, _ => none
  | _ + 1, [], visited, ff, c => some (Except.ok (visited, ff, c))
  | fuel + 1, n :: stack, visited, ff, c =>
    if n ∈ visited then cnlVisit iter mx fuel stack visited ff c
    else
      match runOps mx ((sortOutTransitions (iter.getOut n)).map (fun p => FOp.mkChar p.2)) c with
      | Except.error e => some (Except.error e)
      | Except.ok c2 =>
        cnlVisit iter mx fuel
          ((sortOutTransitions (iter.getOut n)).map (fun p => p.1) ++ stack)
          (n :: visited) (ff || iter.isFinal n) c2

/-- `createNodeList` (to-regex.ts:188-266): one `tc.emptyConcat` for the
temp-initial link, then the DFS; if no visited state was final the result
is `null` (modelled `none` in the payload). In the non-null case the
function goes on to build the node list (more `tc` calls and the
dead-state pruning); that continuation is consumed only by
`eliminateStates`, which the C5 argument abstracts over, so the non-null
payload here is the visited set and the counter. -/
def createNodeListM {T : Type} [DecidableEq T] (iter : FAIterator T) (mx fuel : Nat) :
    Option (Except TErr (Option (List T) × Nat)) :=
  match tcEmptyConcat mx 0 with
  | Except.error e => some (Except.error e)
  | Except.ok (_, c1) =>
    match cnlVisit iter mx fuel [iter.initial] [] false c1 with
    | none => none
    | some (Except.error e) => some (Except.error e)
    | some (Except.ok (visited, ff, c2)) =>
      if ff then some (Except.ok (some visited, c2))
      else some (Except.ok (none, c2))

/-- `stateElimination` (to-regex.ts:598-623), abstracting the
`eliminateStates`/final-transition phase of the non-null branch into an
arbitrary continuation `elim`: on a `null` node list the result is
`tc.emptyExpression()`. -/
def stateEliminationWith {T : Type} [DecidableEq T] (iter : FAIterator T) (mx fuel : Nat)
    (elim : List T → Nat → Except TErr (Expression × Nat)) :
    Option (Except TErr (Expression × Nat)) :=
  match createNodeListM iter mx fuel with
  | none => none
  | some (Except.error e) => some (Except.error e)
  | some (Except.ok (none, c)) => some (tcEmptyExpression mx c)
  | some (Except.ok (some visited, c)) => some (elim visited c)

/-- `faToRegex` (to-regex.ts:987-1002): state elimination, then the
optimization loop (pass budget explicit; the default `Infinity` is
modelled by quantifying over every finite budget). -/
def faToRegexWith {T : Type} [DecidableEq T] (iter : FAIterator T) (mx fuel passes : Nat)
    (elim : List T → Nat → Except TErr (Expression × Nat)) :
    Option (Except TErr Expression) :=
  match stateEliminationWith iter mx fuel elim with
  | none => none
  | some (Except.error e) => some (Except.error e)
  | some (Except.ok (ex, _)) => some (Except.ok (optimizeLoop passes ex))

theorem tcEmptyConcat_error (mx c : Nat) (e : TErr)
    (h : tcEmptyConcat mx c = Except.error e) : e = TErr.tooManyNodes := by
  rw [tcEmptyConcat, incrementCounter] at h
  split at h
  · exact (Except.error.inj h).symm
  · exact Except.noConfusion h

theorem tcEmptyExpression_error (mx c : Nat) (e : TErr)
    (h : tcEmptyExpression mx c = Except.error e) : e = TErr.tooManyNodes := by
  rw [tcEmptyExpression, incrementCounter] at h
  split at h
  · exact (Except.error.inj h).symm
  · exact Except.noConfusion h

theorem runOps_mkChar_error {T : Type} (mx : Nat) :
    ∀ (l : List (T × CharSet)) (c : Nat) (e : TErr),
      runOps mx (l.map (fun p => FOp.mkChar p.2)) c = Except.error e →
      e = TErr.tooManyNodes := by
  intro l
  induction l with
  | nil =>
    intro c e h
    rw [List.map_nil, runOps] at h
    exact Except.noConfusion h
  | cons p rest ih =>
    intro c e h
    rw [List.map_cons, runOps, runOp, tcChar, incrementCounter] at h
    split at h
    · exact (Except.error.inj h).symm
    · exact ih (c + 1) e h

theorem cnlVisit_error {T : Type} [DecidableEq T] (iter : FAIterator T) (mx : Nat) :
    ∀ (fuel : Nat) (stack visited : List T) (ff : Bool) (c : Nat) (e : TErr),
      cnlVisit iter mx fuel stack visited ff c = some (Except.error e) →
      e = TErr.tooManyNodes := by
  intro fuel
  induction fuel with
  | zero =>
    intro stack visited ff c e h
    rw [cnlVisit] at h
    exact Option.noConfusion h
  | succ f ih =>
    intro stack visited ff c e h
    cases stack with
    | nil =>
      rw [cnlVisit] at h
      exact Except.noConfusion (Option.some.inj h)
    | cons n rest =>
      rw [cnlVisit] at h
      split at h
      · exact ih rest visited ff c e h
      · split at h
        · rename_i e2 heq
          rw [runOps_mkChar_error mx (sortOutTransitions (iter.getOut n)) c e2 heq] at h
          exact (Except.error.inj (Option.some.inj h)).symm
        · exact ih _ _ _ _ e h

theorem cnlVisit_no_final {T : Type} [DecidableEq T] (iter : FAIterator T) (mx : Nat)
    (hnf : ∀ n, Reachable iter n → iter.isFinal n = false) :
    ∀ (fuel : Nat) (stack visited : List T) (c : Nat),
      (∀ n ∈ stack, Reachable iter n) →
      ∀ (res : List T × Bool × Nat),
        cnlVisit iter mx fuel stack visited false c = some (Except.ok res) →
        res.2.1 = false := by
  intro fuel
  induction fuel with
  | zero =>
    intro stack visited c hstack res hres
    rw [cnlVisit] at hres
    exact Option.noConfusion hres
  | succ f ih =>
    intro stack visited c hstack res hres
    cases stack with
    | nil =>
      rw [cnlVisit] at hres
      rw [← Except.ok.inj (Option.some.inj hres)]
    | cons n rest =>
      rw [cnlVisit] at hres
      split at hres
      · exact ih rest visited c (fun m hm => hstack m (List.mem_cons_of_mem n hm)) res hres
      · split at hres
        · exact Except.noConfusion (Option.some.inj hres)
        · have hn : Reachable iter n := hstack n (List.mem_cons_self n rest)
          rw [Bool.false_or, hnf n hn] at hres
          refine ih _ (n :: visited) _ ?_ res hres
          intro m hm
          rcases List.mem_append.mp hm with h1 | h2
          · obtain ⟨pq, hpq, hm2⟩ := List.mem_map.mp h1
            rw [sortOutTransitions] at hpq
            have hout : pq ∈ iter.getOut n := jsSort_mem _ _ _ hpq
            subst hm2
            refine Reachable.step pq.1 pq.2 hn ?_
            rw [Prod.mk.eta]
            exact hout
          · exact hstack m (List.mem_cons_of_mem n h2)

theorem optimize_empty : optimize (Expression.mk []) = (Expression.mk [], false) := by
  simp [optimize, optAlts, onNodeWithAlternatives, inlineAlternatives, optimizeEmptyString,
    factorOutCommonPreAndSuffix]

theorem optimizeLoop_empty (p : Nat) : optimizeLoop p (Expression.mk []) = Expression.mk [] := by
  induction p with
  | zero => rfl
  | succ n ih =>
    show (if (optimize (Expression.mk [])).2 = true
        then optimizeLoop n (optimize (Expression.mk [])).1
        else (optimize (Expression.mk [])).1) = Expression.mk []
    rw [optimize_empty]
    rfl

theorem createNodeListM_cases {T : Type} [DecidableEq T] (iter : FAIterator T)
    (mx fuel : Nat) (hnf : ∀ n, Reachable iter n → iter.isFinal n = false)
    (r : Except TErr (Option (List T) × Nat)) (h : createNodeListM iter mx fuel = some r) :
    r = Except.error TErr.tooManyNodes ∨ ∃ c, r = Except.ok (none, c) := by
  rw [createNodeListM] at h
  split at h
  · rename_i e htc
    left
    rw [← Option.some.inj h, tcEmptyConcat_error mx 0 e htc]
  · split at h
    · exact Option.noConfusion h
    · rename_i e hcv
      left
      rw [← Option.some.inj h, cnlVisit_error iter mx fuel _ _ _ _ e hcv]
    · rename_i visited ff c2 hcv
      split at h
      · rename_i hff
        exfalso
        have hf : ff = false := by
          refine cnlVisit_no_final iter mx hnf fuel [iter.initial] [] _ ?_
            (visited, ff, c2) hcv
          intro m hm
          rcases List.mem_singleton.mp hm with rfl
          exact Reachable.init
        rw [hf] at hff
        exact Bool.noConfusion hff
      · right
        exact ⟨c2, (Option.some.inj h).symm⟩

theorem stateEliminationWith_cases {T : Type} [DecidableEq T] (iter : FAIterator T)
    (mx fuel : Nat) (elim : List T → Nat → Except TErr (Expression × Nat))
    (hnf : ∀ n, Reachable iter n → iter.isFinal n = false)
    (r : Except TErr (Expression × Nat))
    (h : stateEliminationWith iter mx fuel elim = some r) :
    r = Except.error TErr.tooManyNodes ∨ ∃ c, r = Except.ok (Expression.mk [], c) := by
  rw [stateEliminationWith] at h
  split at h
  · exact Option.noConfusion h
  · rename_i e hcn
    rcases createNodeListM_cases iter mx fuel hnf _ hcn with he | ⟨c, hc⟩
    · left
      rw [← Option.some.inj h, Except.error.inj he]
    · exact Except.noConfusion hc
  · rename_i c hcn
    rw [← Option.some.inj h, tcEmptyExpression, incrementCounter]
    split
    · left
      rfl
    · right
      exact ⟨c + 1, rfl⟩
  · rename_i visited c hcn
    rcases createNodeListM_cases iter mx fuel hnf _ hcn with he | ⟨c2, hc⟩
    · exact Except.noConfusion he
    · exact Option.noConfusion ((Prod.mk.injEq _ _ _ _).mp (Except.ok.inj hc)).1

/-- C5 (amended): if no final state of the FA is reachable from the
initial state, `faToRegex` either returns the empty expression (zero
alternatives) or fails with `TooManyNodes` — the factory counter runs
during `createNodeList` (`tc.emptyConcat`, one `tc.char` per visited
transition) and during the final `tc.emptyExpression()`, so a small
`maximumNodes` budget aborts the conversion before the empty expression
is built. The `eliminateStates` continuation is abstracted as `elim`: on
the no-reachable-final path it is never invoked, so the result holds for
every `elim`. -/
theorem claim_no_reachable_final {T : Type} [DecidableEq T] (iter : FAIterator T)
    (mx fuel passes : Nat) (elim : List T → Nat → Except TErr (Expression × Nat))
    (hnf : ∀ n, Reachable iter n → iter.isFinal n = false)
    (res : Except TErr Expression)
    (hres : faToRegexWith iter mx fuel passes elim = some res) :
    res = Except.ok (Expression.mk []) ∨ res = Except.error TErr.tooManyNodes := by
  rw [faToRegexWith] at hres
  split at hres
  · exact Option.noConfusion hres
  · rename_i e hse
    rcases stateEliminationWith_cases iter mx fuel elim hnf _ hse with he | ⟨c, hc⟩
    · right
      rw [← Option.some.inj hres, Except.error.inj he]
    · exact Except.noConfusion hc
  · rename_i ex snd hse
    rcases stateEliminationWith_cases iter mx fuel elim hnf _ hse with he | ⟨c, hc⟩
    · exact Except.noConfusion he
    · left
      have hex : ex = Expression.mk [] := ((Prod.mk.injEq _ _ _ _).mp (Except.ok.inj hc)).1
      rw [← Option.some.inj hres, hex, optimizeLoop_empty]

/-- Counterexample to C5 as stated: an FA with a single non-final state
(so no reachable final state at all), converted with `maximumNodes = 0`,
does not yield the empty expression — the factory counter already
overflows on the `tc.emptyConcat()` call at the start of
`createNodeList`, and the conversion fails with `TooManyNodes`. -/
theorem claim_no_reachable_final_counterexample :
    faToRegexWith (FAIterator.mk (0 : Nat) (fun _ => false) (fun _ => [])) 0 2 0
        (fun _ c => Except.ok (Expression.mk [], c))
      = some (Except.error TErr.tooManyNodes) := rfl

theorem claim_no_reachable_final_witness :
    (Except.ok (Expression.mk []) : Except TErr Expression) = Except.ok (Expression.mk []) ∨
      (Except.ok (Expression.mk []) : Except TErr Expression)
        = Except.error TErr.tooManyNodes :=
  claim_no_reachable_final (FAIterator.mk (0 : Nat) (fun _ => false) (fun _ => []))
    10 2 0 (fun _ c => Except.ok (Expression.mk [], c)) (fun _ _ => rfl)
    (Except.ok (Expression.mk [])) rfl

end Refa
